import Mathlib

/-!
Verification of the fermionic block-sparse array core of symmray
(src/symmray/fermionic_core.py).  Dense numeric blocks are kept abstract
behind a `Backend` structure: per-block arithmetic is delegated to an
external numeric backend in the source as well.  Helpers that live in
files not present in src/ (symmetric_core.py, symmetries.py) are modelled
from the specification and carry a doc comment saying so.
-/

set_option maxHeartbeats 1000000

namespace Symmray

/-- A sector: one charge per axis.  Charges are integers (the abelian
groups used by the source embed into products of integers; only the
parity projection matters for the fermionic sign layer). -/
abbrev Sector := List Int

/-! ### Association lists, mirroring Python dicts at lookup level -/

/-- Lookup in an association list, like Python `dict.get`. -/
def lookupA {κ α : Type} [DecidableEq κ] : List (κ × α) → κ → Option α
  | [], _ => none
  | (k2, v) :: rest, k => if k2 = k then some v else lookupA rest k

/-- Remove a key, like Python `dict.pop`. -/
def eraseA {κ α : Type} [DecidableEq κ] : List (κ × α) → κ → List (κ × α)
  | [], _ => []
  | (k2, v) :: rest, k =>
    if k2 = k then eraseA rest k else (k2, v) :: eraseA rest k

/-- Set a key to a value, like Python `dict.__setitem__`: replaces an
existing entry in place, otherwise appends at the end. -/
def setA {κ α : Type} [DecidableEq κ] : List (κ × α) → κ → α → List (κ × α)
  | [], k, v => [(k, v)]
  | (k2, w) :: rest, k, v =>
    if k2 = k then (k2, v) :: rest else (k2, w) :: setA rest k v

/-- One dictionary update decision: leave the key alone, delete it, or
store a value for it. -/
inductive Upd where
  | keep : Upd
  | del : Upd
  | put : Int → Upd
deriving DecidableEq

/-- Apply one update decision at one key. -/
def stepUpd {κ : Type} [DecidableEq κ] (g : κ → Option Int → Upd)
    (st : List (κ × Int)) (s : κ) : List (κ × Int) :=
  match g s (lookupA st s) with
  | .keep => st
  | .del => eraseA st s
  | .put v => setA st s v

/-- Fold a per-key dictionary update over a list of keys; this is the
shape of the `for sector in new.sectors:` phase-update loops in the
source. -/
def foldUpd {κ : Type} [DecidableEq κ] (g : κ → Option Int → Upd)
    (st : List (κ × Int)) (l : List κ) : List (κ × Int) :=
  l.foldl (stepUpd g) st

/-- What an update decision means for a subsequent lookup. -/
def updLookup (u : Upd) (o : Option Int) : Option Int :=
  match u with
  | .keep => o
  | .del => none
  | .put v => some v

/-! ### Small list utilities from symmetric_core.py (not in src/) -/

/-- Modelled from the spec: `permuted` (symmetric_core.py is not in src/).
`permuted(seq, axes) = tuple(seq[ax] for ax in axes)`, the reindexing used
for sector keys and index lists throughout the source. -/
def permuted {α : Type} [Inhabited α] (l : List α) (axes : List Nat) : List α :=
  axes.map (fun a => l.getD a default)

/-- Modelled from the spec: `without` (symmetric_core.py is not in src/).
The elements of `l` not occurring in `axs`, order preserved: the
uncontracted axes of a tensordot operand. -/
def without (l : List Nat) (axs : List Nat) : List Nat :=
  l.filter (fun a => !(axs.contains a))

/-- Position of an element in a list (Python `list.index`). -/
def posOf : List Nat → Nat → Nat
  | [], _ => 0
  | x :: xs, a => if x = a then 0 else posOf xs a + 1

/-! ### The permutation-phase calculator (symmetries.py, not in src/) -/

/-- The number of inversions of the permutation `axes` that happen among
odd-parity entries: pairs of positions `i < j` whose entries are out of
order and both carry odd parity. -/
def calcPhaseExp (parities : List Bool) (axes : List Nat) : Nat :=
  ((Finset.range axes.length ×ˢ Finset.range axes.length).filter
    (fun ij => ij.1 < ij.2 ∧ axes.getD ij.2 0 < axes.getD ij.1 0
       ∧ parities.getD (axes.getD ij.1 0) false = true
       ∧ parities.getD (axes.getD ij.2 0) false = true)).card

/-- Modelled from the spec: `calc_phase_permutation` (symmetries.py is not
in src/): returns −1 iff the permutation `axes`, restricted to the
subsequence of odd-parity axes, is an odd permutation (an odd number of
inversions among odd-parity entries); even-parity axes never contribute.
Passing no axes means the full axis reversal, as used by `conj`. -/
def calc_phase_permutation (parities : List Bool) (axes? : Option (List Nat)) : Int :=
  let axes := axes?.getD ((List.range parities.length).reverse)
  if calcPhaseExp parities axes % 2 = 1 then -1 else 1

/-! ### Data model -/

/-- One tensor axis: an ordered charge → dimension mapping plus a flow
(directional) flag; flow `true` is the dual ("bra") orientation. -/
structure BlockIndex where
  chargemap : List (Int × Nat)
  flow : Bool
deriving DecidableEq

instance : Inhabited BlockIndex := ⟨⟨[], false⟩⟩

/-- Conjugation flips only the flow, leaving the chargemap untouched. -/
def BlockIndex.conj (ix : BlockIndex) : BlockIndex :=
  { chargemap := ix.chargemap, flow := !ix.flow }

/-- Total dimension of an axis: the sum of the block dimensions. -/
def BlockIndex.sizeTotal (ix : BlockIndex) : Nat :=
  (ix.chargemap.map Prod.snd).sum

/-- The external numeric backend: the dense per-block operations the core
delegates (spec: "the numeric backend that performs raw dense-array
arithmetic ... on a per-block basis" is an external collaborator). -/
structure Backend (B : Type) where
  bconj : B → B
  bneg : B → B
  btranspose : List Nat → B → B
  btransposeD : B → B
  badd : B → B → B
  btdot : List Nat → List Nat → B → B → B
  bstack : List B → B

/-- A fermionic block-sparse array: ordered axes, a target total charge,
a sparse sector → dense-block mapping, and the lazy per-sector phases.
`parity` is the symmetry's parity projection (a class attribute of the
concrete array classes in the source). -/
structure FermionicArray (B : Type) where
  parity : Int → Bool
  indices : List BlockIndex
  charge : Int
  blocks : List (Sector × B)
  phases : List (Sector × Int)

namespace FermionicArray

variable {B : Type}

/-- Number of axes. -/
def ndim (x : FermionicArray B) : Nat := x.indices.length

/-- The stored sectors, in storage order (`blocks.keys()`). -/
def sectors (x : FermionicArray B) : List Sector := x.blocks.map Prod.fst

/-- Modelled from the spec: `SymmetricArray.size` (symmetric_core.py is
not in src/): the total element count, the product of the per-axis total
dimensions. -/
def size (x : FermionicArray B) : Nat :=
  (x.indices.map BlockIndex.sizeTotal).prod

/-- Per-sector parities, `tuple(symmetry.parity(q) for q in sector)`. -/
def parities (x : FermionicArray B) (s : Sector) : List Bool := s.map x.parity

end FermionicArray

/-- Modelled from the spec: `SymmetricArray.transpose` (symmetric_core.py
is not in src/): permutes the axis order, remaps every sector key by the
same permutation, and permutes each dense block's axes identically (the
dense transpose itself is the backend's). -/
def symTranspose {B : Type} (be : Backend B) (axes : List Nat)
    (x : FermionicArray B) : FermionicArray B :=
  { x with
    indices := permuted x.indices axes,
    blocks := x.blocks.map (fun sb => (permuted sb.1 axes, be.btranspose axes sb.2)) }

namespace FermionicArray

variable {B : Type}

/-- `FermionicArray.transpose` from the source: with `phase`, rebuilds the
phase map by multiplying each sector's stored phase with the permutation
phase of its parities, keeping only −1 entries, keyed by the permuted
sector; without `phase`, only re-keys the existing entries.  Then the
block data is transposed as in the non-fermionic case. -/
def transpose (be : Backend B) (x : FermionicArray B)
    (axes? : Option (List Nat)) (phase : Bool) : FermionicArray B :=
  let axes := axes?.getD ((List.range x.ndim).reverse)
  let x1 :=
    if phase then
      { x with phases := x.blocks.filterMap (fun sb =>
          if ((lookupA x.phases sb.1).getD 1)
              * calc_phase_permutation (x.parities sb.1) (some axes) = -1
          then some (permuted sb.1 axes, -1) else none) }
    else
      { x with phases := x.phases.map (fun sp => (permuted sp.1 axes, sp.2)) }
  symTranspose be axes x1

/-- `FermionicArray.phase_flip` from the source: for each sector, if the
combined parity across the named axes is odd, flip that sector's lazy
sign, dropping entries that return to +1.  (The source's early return for
an empty axis list is behaviorally the identity of this fold.) -/
def phase_flip (x : FermionicArray B) (axs : List Nat) : FermionicArray B :=
  { x with phases := foldUpd (fun s old =>
      if (axs.countP (fun ax => x.parity (s.getD ax 0))) % 2 = 1 then
        if -(old.getD 1) = 1 then Upd.del else Upd.put (-(old.getD 1))
      else Upd.keep) x.phases x.sectors }

/-- `FermionicArray.phase_resolve` from the source: multiply every
buffered −1 phase into its block and empty the phase map. -/
def phase_resolve (be : Backend B) (x : FermionicArray B) : FermionicArray B :=
  { x with
    blocks := x.blocks.map (fun sb =>
      (sb.1, if lookupA x.phases sb.1 = some (-1) then be.bneg sb.2 else sb.2)),
    phases := [] }

/-- `FermionicArray.phase_virtual_transpose` from the source: update the
per-sector phases as a phased transpose would, but move no data and leave
every key in place. -/
def phase_virtual_transpose (x : FermionicArray B)
    (axes? : Option (List Nat)) : FermionicArray B :=
  { x with phases := foldUpd (fun s old =>
      if (old.getD 1) * calc_phase_permutation (x.parities s) axes? = 1 then Upd.del
      else Upd.put
        ((old.getD 1) * calc_phase_permutation (x.parities s) axes?)) x.phases x.sectors }

/-- The axes that are dual ("bra", flow `true`) after flipping every
flow, `axs_conj` in the source's `conj`. -/
def conjFlipAxes (x : FermionicArray B) : List Nat :=
  (List.range (x.indices.map BlockIndex.conj).length).filter
    (fun ax => ((x.indices.map BlockIndex.conj).getD ax default).flow)

/-- The sign contributed to a sector by a list of axes: −1 iff the
combined parity over those axes is odd (the `phase_flip` criterion, and
the bra-axes factor of `conj`). -/
def axesSign (x : FermionicArray B) (axs : List Nat) (s : Sector) : Int :=
  if (axs.countP (fun ax => x.parity (s.getD ax 0))) % 2 = 1 then -1 else 1

/-- `FermionicArray.conj` from the source: flip every index's flow,
conjugate every block, and (with `phase`) multiply each sector's phase by
the virtual full-reversal phase and by −1 when the combined parity on the
new dual ("bra") axes is odd. -/
def conj (be : Backend B) (x : FermionicArray B) (phase : Bool) : FermionicArray B :=
  { x with
    indices := x.indices.map BlockIndex.conj,
    blocks := x.blocks.map (fun sb => (sb.1, be.bconj sb.2)),
    phases :=
      if phase then
        foldUpd (fun s old =>
          if (old.getD 1) * (calc_phase_permutation (x.parities s) none
              * axesSign x (conjFlipAxes x) s) = 1 then Upd.del
          else Upd.put ((old.getD 1) * (calc_phase_permutation (x.parities s) none
              * axesSign x (conjFlipAxes x) s))) x.phases x.sectors
      else x.phases }

/-- The unphased part of `FermionicArray.dagger`: reverse the axis order,
conjugate flows and blocks (dense conjugate-transpose per block), and
carry already-buffered −1 phases to the reversed sector keys. -/
def daggerCore (be : Backend B) (x : FermionicArray B) : FermionicArray B :=
  { x with
    indices := (x.indices.reverse).map BlockIndex.conj,
    blocks := x.blocks.map (fun sb => (sb.1.reverse, be.btransposeD (be.bconj sb.2))),
    phases := x.blocks.filterMap (fun sb =>
      if lookupA x.phases sb.1 = some (-1) then some (sb.1.reverse, -1) else none) }

/-- `FermionicArray.dagger` from the source: the conjugate transpose,
plus (with `phase`) a phase flip of the axes that are dual in the new
orientation. -/
def dagger (be : Backend B) (x : FermionicArray B) (phase : Bool) : FermionicArray B :=
  if phase then
    (daggerCore be x).phase_flip ((List.range (daggerCore be x).indices.length).filter
      (fun ax => ((daggerCore be x).indices.getD ax default).flow))
  else daggerCore be x

end FermionicArray

/-! ### Fuse -/

/-- Modelled from the spec: the permutation component of `calc_fuse_info`
(symmetric_core.py is not in src/): a permutation making each group of
axes contiguous ("first transpose so the group is contiguous").  The spec
does not fix where the groups are placed; here ungrouped axes come first,
then the groups in order. -/
def fusePerm (groups : List (List Nat)) (n : Nat) : List Nat :=
  without (List.range n) groups.flatten ++ groups.flatten

/-- The dimension of one combination of member charges of a fused group:
the product of the member dimensions. -/
def comboDim {B : Type} (x : FermionicArray B) (g : List Nat) (combo : List Int) : Nat :=
  ((g.zip combo).map
    (fun p => (lookupA (x.indices.getD p.1 default).chargemap p.2).getD 0)).prod

/-- Accumulate one achievable combined charge into a fused chargemap. -/
def addToChargemap (cm : List (Int × Nat)) (c : Int) (d : Nat) : List (Int × Nat) :=
  match lookupA cm c with
  | some d0 => setA cm c (d0 + d)
  | none => cm ++ [(c, d)]

/-- The fused chargemap of one group: the combined charges of the
combinations actually occurring among stored sectors, each with the
summed dimension of its contributing combinations. -/
def fusedChargemap {B : Type} (x : FermionicArray B) (g : List Nat) : List (Int × Nat) :=
  ((x.blocks.map (fun sb => permuted sb.1 g)).dedup).foldl
    (fun cm combo => addToChargemap cm combo.sum (comboDim x g combo)) []

/-- Modelled from the spec: `SymmetricArray.fuse` (symmetric_core.py is
not in src/): merges each (already contiguous) group of axes into one
axis whose chargemap holds the achievable combined charges, consolidating
the blocks of sectors sharing the same fused sector into one dense block
(the raw concatenate/reshape is the backend's `bstack`).  The fused axis
takes the flow of the group's leading axis; the fermionic phase map is
carried over untouched, as the sign-unaware source method would. -/
def symFuse {B : Type} (be : Backend B) (x : FermionicArray B)
    (groups : List (List Nat)) : FermionicArray B :=
  let n := x.ndim
  let ungrouped := without (List.range n) groups.flatten
  let newSector := fun (s : Sector) =>
    permuted s ungrouped ++ groups.map (fun g => (permuted s g).sum)
  let newIndices := permuted x.indices ungrouped ++ groups.map (fun g =>
    { chargemap := fusedChargemap x g,
      flow := (x.indices.getD (g.headD 0) default).flow })
  let outSectors := (x.blocks.map (fun sb => newSector sb.1)).dedup
  { x with
    indices := newIndices,
    blocks := outSectors.map (fun t =>
      (t, be.bstack ((x.blocks.filter (fun sb => newSector sb.1 == t)).map Prod.snd))) }

namespace FermionicArray

variable {B : Type}

/-- The fermionic preprocessing of `FermionicArray.fuse` from the source:
transpose the groups contiguous (with phases), then for every nonempty
group whose leading axis is dual: flip the group members that are not
dual, and record a virtual reversal of the group's positions; finally
resolve all lazy phases. -/
def fusePrepare (be : Backend B) (x : FermionicArray B)
    (groups : List (List Nat)) : FermionicArray B :=
  let perm := fusePerm groups x.ndim
  let x1 := x.transpose be (some perm) true
  let groups2 := groups.map (fun g => g.map (posOf perm))
  let dualLed := groups2.filter
    (fun g => !g.isEmpty && (x1.indices.getD (g.headD 0) default).flow)
  let axesFlip := (dualLed.map (fun g =>
    g.filter (fun ax => !(x1.indices.getD ax default).flow))).flatten
  let x2 := x1.phase_flip axesFlip
  let x3 :=
    if dualLed.isEmpty then x2
    else x2.phase_virtual_transpose (some (dualLed.foldl
      (fun vp g => (g.zip g.reverse).foldl (fun vp2 p => vp2.set p.1 p.2) vp)
      (List.range x1.ndim)))
  x3.phase_resolve be

/-- `FermionicArray.fuse` from the source: the fermionic preprocessing
followed by the sign-unaware symmetric fuse on the regrouped axes. -/
def fuse (be : Backend B) (x : FermionicArray B)
    (groups : List (List Nat)) : FermionicArray B :=
  symFuse be (x.fusePrepare be groups)
    (groups.map (fun g => g.map (posOf (fusePerm groups x.ndim))))

end FermionicArray

/-- Follows the claim C5 wording, for comparison with the source: flip
every axis in every nonempty group whose flow disagrees with the group's
leading axis (regardless of the leading axis's orientation); the virtual
reversal and the final resolve are as in the source. -/
def claimedFusePrepare {B : Type} (be : Backend B) (x : FermionicArray B)
    (groups : List (List Nat)) : FermionicArray B :=
  let perm := fusePerm groups x.ndim
  let x1 := x.transpose be (some perm) true
  let groups2 := groups.map (fun g => g.map (posOf perm))
  let dualLed := groups2.filter
    (fun g => !g.isEmpty && (x1.indices.getD (g.headD 0) default).flow)
  let axesFlip := (groups2.filter (fun g => !g.isEmpty)).map (fun g =>
    g.filter (fun ax =>
      (x1.indices.getD ax default).flow != (x1.indices.getD (g.headD 0) default).flow))
  let x2 := x1.phase_flip axesFlip.flatten
  let x3 :=
    if dualLed.isEmpty then x2
    else x2.phase_virtual_transpose (some (dualLed.foldl
      (fun vp g => (g.zip g.reverse).foldl (fun vp2 p => vp2.set p.1 p.2) vp)
      (List.range x1.ndim)))
  x3.phase_resolve be

/-! ### Contraction -/

/-- Modelled from the spec: `tensordot_symmetric` (symmetric_core.py is
not in src/): matches sectors of `a` and `b` whose charges agree on the
contracted axes (flow compatibility of the contracted axis pairs is the
caller's concern), contracts the paired blocks, and accumulates the
results by sum into the output sector formed by concatenating the
uncontracted charges of `a` then `b`; the output total charge combines
both.  The integer group stands in for the abelian charge algebra. -/
def tensordot_symmetric {B : Type} (be : Backend B) (a b : FermionicArray B)
    (axesA axesB : List Nat) : FermionicArray B :=
  let leftA := without (List.range a.ndim) axesA
  let rightB := without (List.range b.ndim) axesB
  { parity := a.parity,
    indices := permuted a.indices leftA ++ permuted b.indices rightB,
    charge := a.charge + b.charge,
    blocks := a.blocks.foldl (fun acc sa =>
      b.blocks.foldl (fun acc2 sb =>
        if permuted sa.1 axesA = permuted sb.1 axesB then
          let key := permuted sa.1 leftA ++ permuted sb.1 rightB
          let term := be.btdot axesA axesB sa.2 sb.2
          match lookupA acc2 key with
          | some v => setA acc2 key (be.badd v term)
          | none => acc2 ++ [(key, term)]
        else acc2) acc) [],
    phases := [] }

/-- The `axes` argument of tensordot: a single count of trailing/leading
axes, or an explicit pair of axis lists (possibly negative, Python
style). -/
def AxesArg : Type := Sum Nat (List Int × List Int)

/-- The axes parsing of `tensordot_fermionic` from the source: an integer
selects the last axes of `a` against the first of `b`; explicit lists are
normalized modulo the rank (Python `%`, which also absorbs negative
indices) and must have equal length. -/
def parseAxes (ndimA ndimB : Nat) : AxesArg → Except String (List Nat × List Nat)
  | Sum.inl k => Except.ok ((List.range ndimA).drop (ndimA - k), List.range k)
  | Sum.inr la =>
    let axA := la.1.map (fun x => (x % (ndimA : Int)).toNat)
    let axB := la.2.map (fun x => (x % (ndimB : Int)).toNat)
    if axA.length = axB.length then Except.ok (axA, axB)
    else Except.error "Axes must have same length."

/-- `tensordot_fermionic` from the source: parse the axes; transpose `a`
to `[uncontracted, contracted]` and `b` to `[contracted, uncontracted]`
with phases; virtually reverse `b`'s contracted axes; phase-flip the
smaller operand using reverse flows (`a`: its dual contracted axes; `b`:
its non-dual contracted axes); resolve both; delegate to the symmetric
contraction. -/
def tensordot_fermionic {B : Type} (be : Backend B) (a b : FermionicArray B)
    (axes : AxesArg) : Except String (FermionicArray B) := do
  let ndimA := a.ndim
  let ndimB := b.ndim
  let parsed ← parseAxes ndimA ndimB axes
  let axesA := parsed.1
  let axesB := parsed.2
  let leftAxes := without (List.range ndimA) axesA
  let rightAxes := without (List.range ndimB) axesB
  let ncon := axesA.length
  let permA := leftAxes ++ axesA
  let permB := axesB ++ rightAxes
  let a1 := a.transpose be (some permA) true
  let b1 := b.transpose be (some permB) true
  let newAxesA := (List.range ndimA).drop (ndimA - ncon)
  let newAxesB := List.range ncon
  let b2 := b1.phase_virtual_transpose
    (some ((List.range ncon).reverse ++ (List.range b1.ndim).drop ncon))
  let ab :=
    if a1.size ≤ b2.size then
      (a1.phase_flip (newAxesA.filter (fun ax => (a1.indices.getD ax default).flow)), b2)
    else
      (a1, b2.phase_flip (newAxesB.filter (fun ax => !(b2.indices.getD ax default).flow)))
  let a2 := ab.1.phase_resolve be
  let b3 := ab.2.phase_resolve be
  return tensordot_symmetric be a2 b3 newAxesA newAxesB

/-- Follows the claim C1 wording, for comparison with the source: the
same staged procedure, except that the phase-flip step applies to the
smaller operand's contracted axes that are dual-oriented (flow `true`)
for that operand itself, whichever operand is smaller. -/
def claimedTensordot {B : Type} (be : Backend B) (a b : FermionicArray B)
    (axes : AxesArg) : Except String (FermionicArray B) := do
  let ndimA := a.ndim
  let ndimB := b.ndim
  let parsed ← parseAxes ndimA ndimB axes
  let axesA := parsed.1
  let axesB := parsed.2
  let leftAxes := without (List.range ndimA) axesA
  let rightAxes := without (List.range ndimB) axesB
  let ncon := axesA.length
  let permA := leftAxes ++ axesA
  let permB := axesB ++ rightAxes
  let a1 := a.transpose be (some permA) true
  let b1 := b.transpose be (some permB) true
  let newAxesA := (List.range ndimA).drop (ndimA - ncon)
  let newAxesB := List.range ncon
  let b2 := b1.phase_virtual_transpose
    (some ((List.range ncon).reverse ++ (List.range b1.ndim).drop ncon))
  let ab :=
    if a1.size ≤ b2.size then
      (a1.phase_flip (newAxesA.filter (fun ax => (a1.indices.getD ax default).flow)), b2)
    else
      (a1, b2.phase_flip (newAxesB.filter (fun ax => (b2.indices.getD ax default).flow)))
  let a2 := ab.1.phase_resolve be
  let b3 := ab.2.phase_resolve be
  return tensordot_symmetric be a2 b3 newAxesA newAxesB

/-! ### A concrete backend for witnesses and counterexamples

All dense blocks of the witness arrays are single real scalars, for which
the dense transpose and reshape are the identity and contraction is
multiplication; `Int` stands in for the scalar type. -/

/-- The scalar integer backend used at concrete inputs. -/
def intBe : Backend Int :=
  { bconj := id,
    bneg := fun v => -v,
    btranspose := fun _ v => v,
    btransposeD := id,
    badd := fun u v => u + v,
    btdot := fun _ _ u v => u * v,
    bstack := fun l => l.sum }

/-- Odd-parity projection of an integer charge. -/
def intOdd : Int → Bool := fun c => c % 2 = 1

/-! ### Association-list lemmas -/

section AssocLemmas

variable {κ α : Type} [DecidableEq κ]

theorem lookupA_eraseA_self (l : List (κ × α)) (k : κ) :
    lookupA (eraseA l k) k = none := by
  induction l with
  | nil => rfl
  | cons hd tl ih =>
    obtain ⟨k2, v⟩ := hd
    by_cases h : k2 = k <;> simp [eraseA, lookupA, h, ih]

theorem lookupA_eraseA_ne (l : List (κ × α)) (k k2 : κ) (h : k2 ≠ k) :
    lookupA (eraseA l k) k2 = lookupA l k2 := by
  induction l with
  | nil => rfl
  | cons hd tl ih =>
    obtain ⟨k3, v⟩ := hd
    by_cases h3 : k3 = k
    · subst h3
      simp [eraseA, lookupA, Ne.symm h, ih]
    · by_cases h4 : k3 = k2 <;> simp [eraseA, lookupA, h3, h4, h, ih]

theorem lookupA_setA_self (l : List (κ × α)) (k : κ) (v : α) :
    lookupA (setA l k v) k = some v := by
  induction l with
  | nil => simp [setA, lookupA]
  | cons hd tl ih =>
    obtain ⟨k3, w⟩ := hd
    by_cases h3 : k3 = k <;> simp [setA, lookupA, h3, ih]

theorem lookupA_setA_ne (l : List (κ × α)) (k k2 : κ) (v : α) (h : k2 ≠ k) :
    lookupA (setA l k v) k2 = lookupA l k2 := by
  induction l with
  | nil => simp [setA, lookupA, Ne.symm h]
  | cons hd tl ih =>
    obtain ⟨k3, w⟩ := hd
    by_cases h3 : k3 = k
    · subst h3
      simp [setA, lookupA, Ne.symm h]
    · by_cases h4 : k3 = k2 <;> simp [setA, lookupA, h3, h4, h, ih]

theorem lookupA_stepUpd_self (g : κ → Option Int → Upd) (st : List (κ × Int)) (s : κ) :
    lookupA (stepUpd g st s) s = updLookup (g s (lookupA st s)) (lookupA st s) := by
  unfold stepUpd
  cases h : g s (lookupA st s) with
  | keep => rfl
  | del => simp [updLookup, lookupA_eraseA_self]
  | put v => simp [updLookup, lookupA_setA_self]

theorem lookupA_stepUpd_ne (g : κ → Option Int → Upd) (st : List (κ × Int)) (s k : κ)
    (h : k ≠ s) : lookupA (stepUpd g st s) k = lookupA st k := by
  unfold stepUpd
  cases g s (lookupA st s) with
  | keep => rfl
  | del => exact lookupA_eraseA_ne st s k h
  | put v => exact lookupA_setA_ne st s k v h

theorem lookupA_foldUpd_notMem (g : κ → Option Int → Upd) (st : List (κ × Int))
    (l : List κ) (k : κ) (h : k ∉ l) :
    lookupA (foldUpd g st l) k = lookupA st k := by
  induction l generalizing st with
  | nil => rfl
  | cons s tl ih =>
    have h1 : k ≠ s := fun he => h (he ▸ List.mem_cons_self s tl)
    have h2 : k ∉ tl := fun hm => h (List.mem_cons_of_mem s hm)
    calc lookupA (foldUpd g (stepUpd g st s) tl) k
        = lookupA (stepUpd g st s) k := ih (stepUpd g st s) h2
      _ = lookupA st k := lookupA_stepUpd_ne g st s k h1

theorem lookupA_foldUpd_mem (g : κ → Option Int → Upd) (st : List (κ × Int))
    (l : List κ) (k : κ) (hnd : l.Nodup) (h : k ∈ l) :
    lookupA (foldUpd g st l) k = updLookup (g k (lookupA st k)) (lookupA st k) := by
  induction l generalizing st with
  | nil => cases h
  | cons s tl ih =>
    have hnd2 : tl.Nodup := hnd.of_cons
    by_cases he : k = s
    · subst he
      have hk : k ∉ tl := (List.nodup_cons.mp hnd).1
      calc lookupA (foldUpd g (stepUpd g st k) tl) k
          = lookupA (stepUpd g st k) k := lookupA_foldUpd_notMem g _ tl k hk
        _ = updLookup (g k (lookupA st k)) (lookupA st k) := lookupA_stepUpd_self g st k
    · have hm : k ∈ tl := by
        cases h with
        | head => exact absurd rfl he
        | tail _ hm => exact hm
      have hst : lookupA (stepUpd g st s) k = lookupA st k :=
        lookupA_stepUpd_ne g st s k he
      rw [show foldUpd g st (s :: tl) = foldUpd g (stepUpd g st s) tl from rfl,
        ih (stepUpd g st s) hnd2 hm, hst]

/-- Keys that survive `stepUpd` are old keys or the stepped key. -/
theorem mem_stepUpd (g : κ → Option Int → Upd) (st : List (κ × Int)) (s : κ)
    (kv : κ × Int) (h : kv ∈ stepUpd g st s) :
    kv ∈ st ∨ (kv.1 = s ∧ g s (lookupA st s) = Upd.put kv.2) := by
  unfold stepUpd at h
  cases hg : g s (lookupA st s) with
  | keep => rw [hg] at h; exact Or.inl h
  | del =>
    rw [hg] at h
    left
    clear hg
    induction st with
    | nil => exact h
    | cons hd tl ih =>
      obtain ⟨k3, w⟩ := hd
      by_cases h3 : k3 = s
      · simp only [eraseA, if_pos h3] at h
        exact List.mem_cons_of_mem _ (ih h)
      · simp only [eraseA, if_neg h3] at h
        cases h with
        | head => exact List.mem_cons_self _ _
        | tail _ hm => exact List.mem_cons_of_mem _ (ih hm)
  | put v =>
    rw [hg] at h
    clear hg
    induction st with
    | nil =>
      simp only [setA, List.mem_singleton] at h
      subst h
      exact Or.inr ⟨rfl, rfl⟩
    | cons hd tl ih =>
      obtain ⟨k3, w⟩ := hd
      by_cases h3 : k3 = s
      · simp only [setA, if_pos h3] at h
        cases h with
        | head => exact Or.inr ⟨h3, rfl⟩
        | tail _ hm => exact Or.inl (List.mem_cons_of_mem _ hm)
      · simp only [setA, if_neg h3] at h
        cases h with
        | head => exact Or.inl (List.mem_cons_self _ _)
        | tail _ hm =>
          cases ih hm with
          | inl hin => exact Or.inl (List.mem_cons_of_mem _ hin)
          | inr hput => exact Or.inr hput

end AssocLemmas

/-! ### Permutation lemmas -/

/-- `p` and `q` are mutually inverse permutations of `{0, …, n−1}`,
written positionally (`p.getD i 0` is the source axis placed at `i`). -/
def InvPerm (p q : List Nat) (n : Nat) : Prop :=
  p.length = n ∧ q.length = n
  ∧ (∀ i, i < n → p.getD i 0 < n) ∧ (∀ j, j < n → q.getD j 0 < n)
  ∧ (∀ i, i < n → q.getD (p.getD i 0) 0 = i)
  ∧ (∀ j, j < n → p.getD (q.getD j 0) 0 = j)

instance (p q : List Nat) (n : Nat) : Decidable (InvPerm p q n) := by
  unfold InvPerm
  infer_instance

theorem permuted_length {α : Type} [Inhabited α] (l : List α) (axes : List Nat) :
    (permuted l axes).length = axes.length := by
  simp [permuted]

theorem getD_permuted {α : Type} [Inhabited α] (l : List α) (axes : List Nat)
    (t : Nat) (ht : t < axes.length) (d : α) :
    (permuted l axes).getD t d = l.getD (axes.getD t 0) default := by
  have h1 : t < (permuted l axes).length := by
    rw [permuted_length]
    exact ht
  rw [List.getD_eq_getElem _ d h1, List.getD_eq_getElem axes 0 ht]
  show (axes.map (fun a => l.getD a default))[t] = _
  rw [List.getElem_map]

theorem permuted_range_self {α : Type} [Inhabited α] (l : List α) :
    permuted l (List.range l.length) = l := by
  apply List.ext_getElem (by simp [permuted])
  intro i h1 h2
  show (List.map (fun a => l.getD a default) (List.range l.length))[i] = l[i]
  rw [List.getElem_map, List.getElem_range]
  exact List.getD_eq_getElem l default h2

theorem permuted_permuted {α : Type} [Inhabited α] (p q : List Nat) (n : Nat)
    (h : InvPerm p q n) (s : List α) (hs : s.length = n) :
    permuted (permuted s p) q = s := by
  obtain ⟨hp, hq, hpn, hqn, hqp, hpq⟩ := h
  apply List.ext_getElem (by simp [permuted, hq, hs])
  intro j hj1 hj2
  have hjn : j < n := hs ▸ hj2
  have hq1 : j < q.length := hq ▸ hjn
  show (q.map (fun a => (permuted s p).getD a default))[j] = s[j]
  rw [List.getElem_map, ← List.getD_eq_getElem q 0 hq1,
    getD_permuted s p (q.getD j 0) (hp ▸ hqn j hjn) default, hpq j hjn]
  exact List.getD_eq_getElem s default hj2

theorem permuted_inj {α : Type} [Inhabited α] (p q : List Nat) (n : Nat)
    (h : InvPerm p q n) (s k : List α) (hs : s.length = n) (hk : k.length = n)
    (he : permuted s p = permuted k p) : s = k := by
  rw [← permuted_permuted p q n h s hs, ← permuted_permuted p q n h k hk, he]

theorem map_permuted {α β : Type} [Inhabited α] [Inhabited β] (f : α → β)
    (s : List α) (axes : List Nat) (h : ∀ a ∈ axes, a < s.length) :
    (permuted s axes).map f = permuted (s.map f) axes := by
  unfold permuted
  rw [List.map_map]
  apply List.map_congr_left
  intro a ha
  have ha2 : a < (s.map f).length := by
    rw [List.length_map]
    exact h a ha
  show f (s.getD a default) = (s.map f).getD a default
  rw [List.getD_eq_getElem s default (h a ha),
    List.getD_eq_getElem (s.map f) default ha2, List.getElem_map]

theorem invPerm_mem_lt (p q : List Nat) (n : Nat) (h : InvPerm p q n) :
    ∀ a ∈ p, a < n := by
  obtain ⟨hp, hq, hpn, hqn, hqp, hpq⟩ := h
  intro a ha
  obtain ⟨i, hi, he⟩ := List.getElem_of_mem ha
  have hia : p.getD i 0 = a := by rw [List.getD_eq_getElem p 0 hi, he]
  exact hia ▸ hpn i (hp ▸ hi)

/-! ### Phase-calculator lemmas -/

theorem calcPhaseExp_range (pa : List Bool) (n : Nat) :
    calcPhaseExp pa (List.range n) = 0 := by
  unfold calcPhaseExp
  rw [Finset.card_eq_zero, Finset.filter_eq_empty_iff]
  rintro ⟨i, j⟩ hij hcon
  rw [Finset.mem_product, Finset.mem_range, Finset.mem_range, List.length_range] at hij
  obtain ⟨h1, h2, -⟩ := hcon
  rw [List.getD_eq_getElem (List.range n) 0 (by rw [List.length_range]; exact hij.2),
    List.getD_eq_getElem (List.range n) 0 (by rw [List.length_range]; exact hij.1),
    List.getElem_range, List.getElem_range] at h2
  exact absurd (h1.trans h2) (lt_irrefl i)

theorem calc_phase_permutation_range (pa : List Bool) (n : Nat) :
    calc_phase_permutation pa (some (List.range n)) = 1 := by
  unfold calc_phase_permutation
  simp [calcPhaseExp_range]

theorem calc_phase_permutation_cases (pa : List Bool) (axes? : Option (List Nat)) :
    calc_phase_permutation pa axes? = 1 ∨ calc_phase_permutation pa axes? = -1 := by
  unfold calc_phase_permutation
  by_cases h : calcPhaseExp pa (axes?.getD (List.range pa.length).reverse) % 2 = 1
  · right
    simp [h]
  · left
    simp [h]

/-- The inversion count among odd entries is the same for a permutation
acting on the original parities and for its inverse acting on the
permuted parities: the witnessing pairs correspond one to one. -/
theorem calcPhaseExp_invPerm (pa : List Bool) (p q : List Nat) (n : Nat)
    (h : InvPerm p q n) :
    calcPhaseExp (permuted pa p) q = calcPhaseExp pa p := by
  obtain ⟨hp, hq, hpn, hqn, hqp, hpq⟩ := h
  have hparity : ∀ t, t < n → (permuted pa p).getD t false = pa.getD (p.getD t 0) false :=
    fun t ht => getD_permuted pa p t (hp ▸ ht) false
  unfold calcPhaseExp
  rw [hp, hq]
  refine (Finset.card_bij (fun ij _ => (p.getD ij.2 0, p.getD ij.1 0)) ?_ ?_ ?_).symm
  · rintro ⟨i, j⟩ hij
    simp only [Finset.mem_filter, Finset.mem_product, Finset.mem_range] at hij ⊢
    obtain ⟨⟨hin, hjn⟩, hlt, hinv, hp1, hp2⟩ := hij
    refine ⟨⟨hpn j hjn, hpn i hin⟩, hinv, ?_, ?_, ?_⟩
    · rw [hqp i hin, hqp j hjn]
      exact hlt
    · rw [hqp j hjn, hparity j hjn]
      exact hp2
    · rw [hqp i hin, hparity i hin]
      exact hp1
  · rintro ⟨i, j⟩ hij ⟨k, l⟩ hkl he
    simp only [Finset.mem_filter, Finset.mem_product, Finset.mem_range] at hij hkl
    rw [Prod.mk.injEq] at he
    obtain ⟨he1, he2⟩ := he
    have h1 : j = l := by
      have hqe : q.getD (p.getD j 0) 0 = q.getD (p.getD l 0) 0 :=
        congrArg (fun t => q.getD t 0) he1
      rw [hqp j hij.1.2, hqp l hkl.1.2] at hqe
      exact hqe
    have h2 : i = k := by
      have hqe : q.getD (p.getD i 0) 0 = q.getD (p.getD k 0) 0 :=
        congrArg (fun t => q.getD t 0) he2
      rw [hqp i hij.1.1, hqp k hkl.1.1] at hqe
      exact hqe
    rw [h1, h2]
  · rintro ⟨c, d⟩ hcd
    simp only [Finset.mem_filter, Finset.mem_product, Finset.mem_range] at hcd
    obtain ⟨⟨hcn, hdn⟩, hlt, hinv, hp1, hp2⟩ := hcd
    rw [hparity (q.getD c 0) (hqn c hcn), hpq c hcn] at hp1
    rw [hparity (q.getD d 0) (hqn d hdn), hpq d hdn] at hp2
    refine ⟨(q.getD d 0, q.getD c 0), ?_, ?_⟩
    · simp only [Finset.mem_filter, Finset.mem_product, Finset.mem_range]
      refine ⟨⟨hqn d hdn, hqn c hcn⟩, hinv, ?_, ?_, ?_⟩
      · rw [hpq c hcn, hpq d hdn]
        exact hlt
      · rw [hpq d hdn]
        exact hp2
      · rw [hpq c hcn]
        exact hp1
    · show (p.getD (q.getD c 0) 0, p.getD (q.getD d 0) 0) = (c, d)
      rw [Prod.mk.injEq]
      exact ⟨hpq c hcn, hpq d hdn⟩

theorem calc_phase_permutation_invPerm (pa : List Bool) (p q : List Nat) (n : Nat)
    (h : InvPerm p q n) :
    calc_phase_permutation (permuted pa p) (some q) = calc_phase_permutation pa (some p) := by
  unfold calc_phase_permutation
  simp only [Option.getD_some, calcPhaseExp_invPerm pa p q n h]

/-! ### Lookups through reindexed and revalued maps -/

theorem lookupA_map_val {α β : Type} (h : Sector → α → β) (l : List (Sector × α))
    (s : Sector) :
    lookupA (l.map (fun kv => (kv.1, h kv.1 kv.2))) s = (lookupA l s).map (h s) := by
  induction l with
  | nil => rfl
  | cons hd tl ih =>
    obtain ⟨k, v⟩ := hd
    by_cases he : k = s
    · subst he
      simp [lookupA]
    · simp [lookupA, he, ih]

theorem lookupA_map_reindex {α β : Type} (g : Sector → Sector) (f : α → β)
    (l : List (Sector × α)) (s : Sector)
    (hinj : ∀ k ∈ l.map Prod.fst, g k = g s → k = s) :
    lookupA (l.map (fun kv => (g kv.1, f kv.2))) (g s) = (lookupA l s).map f := by
  induction l with
  | nil => rfl
  | cons hd tl ih =>
    obtain ⟨k, v⟩ := hd
    by_cases he : k = s
    · subst he
      simp [lookupA]
    · have hne : g k ≠ g s := fun hg => he (hinj k (by simp) hg)
      have ih2 := ih (fun k2 hk2 hg => hinj k2 (by simp [hk2]) hg)
      simp [lookupA, hne, he, ih2]

theorem lookupA_filterMap_cond {α : Type} (P : Sector → Prop) [DecidablePred P]
    (g : Sector → Sector) (d : Int) (l : List (Sector × α)) (s : Sector)
    (hinj : ∀ k ∈ l.map Prod.fst, g k = g s → k = s) :
    lookupA (l.filterMap (fun kv => if P kv.1 then some (g kv.1, d) else none)) (g s)
      = if s ∈ l.map Prod.fst ∧ P s then some d else none := by
  induction l with
  | nil => simp [lookupA]
  | cons hd tl ih =>
    obtain ⟨k, v⟩ := hd
    have ih2 := ih (fun k2 hk2 hg => hinj k2 (by simp [hk2]) hg)
    by_cases he : k = s
    · subst he
      by_cases hc : P k
      · simp [lookupA, hc]
      · simp only [List.filterMap_cons, if_neg hc, ih2]
        simp [hc]
    · have hne : g k ≠ g s := fun hg => he (hinj k (by simp) hg)
      have hiff : (s ∈ k :: List.map Prod.fst tl ∧ P s)
          ↔ (s ∈ List.map Prod.fst tl ∧ P s) := by
        rw [List.mem_cons]
        constructor
        · rintro ⟨h1 | h1, h2⟩
          · exact absurd h1.symm he
          · exact ⟨h1, h2⟩
        · rintro ⟨h1, h2⟩
          exact ⟨Or.inr h1, h2⟩
      by_cases hc : P k
      · simp only [List.filterMap_cons, if_pos hc, lookupA, if_neg hne, ih2, List.map_cons]
        rw [if_congr hiff rfl rfl]
      · simp only [List.filterMap_cons, if_neg hc, ih2, List.map_cons]
        rw [if_congr hiff rfl rfl]

/-- Keys of a filterMap of the transpose-phases shape. -/
theorem mem_filterMap_cond {α : Type} (P : Sector → Prop) [DecidablePred P]
    (g : Sector → Sector) (d : Int) (l : List (Sector × α)) (kv : Sector × Int)
    (h : kv ∈ l.filterMap (fun kv => if P kv.1 then some (g kv.1, d) else none)) :
    kv.2 = d ∧ ∃ k ∈ l.map Prod.fst, kv.1 = g k := by
  rw [List.mem_filterMap] at h
  obtain ⟨⟨k, v⟩, hmem, hres⟩ := h
  by_cases hc : P k
  · rw [if_pos hc, Option.some.injEq] at hres
    subst hres
    exact ⟨rfl, k, List.mem_map_of_mem Prod.fst hmem, rfl⟩
  · rw [if_neg hc] at hres
    cases hres

/-! ### The lazy-phase invariant -/

/-- The spec's phase-map invariant: only −1 is ever stored (trivial
entries are dropped) and every phase key is a currently stored sector. -/
def PhasesOk {B : Type} (x : FermionicArray B) : Prop :=
  ∀ sp ∈ x.phases, sp.2 = -1 ∧ sp.1 ∈ x.sectors

instance {B : Type} (x : FermionicArray B) : Decidable (PhasesOk x) := by
  unfold PhasesOk
  infer_instance

/-- The effective lazy sign of a sector: the stored phase, +1 if absent. -/
def phaseVal {B : Type} (x : FermionicArray B) (s : Sector) : Int :=
  (lookupA x.phases s).getD 1

theorem lookupA_all_neg_one (l : List (Sector × Int)) (h : ∀ sp ∈ l, sp.2 = -1)
    (s : Sector) : lookupA l s = none ∨ lookupA l s = some (-1) := by
  induction l with
  | nil => exact Or.inl rfl
  | cons hd tl ih =>
    obtain ⟨k, v⟩ := hd
    have hv : v = -1 := h (k, v) (List.mem_cons_self _ _)
    by_cases he : k = s
    · subst he
      right
      simp [lookupA, hv]
    · have ih2 := ih (fun sp hsp => h sp (List.mem_cons_of_mem _ hsp)) 
      simpa [lookupA, he] using ih2

theorem phasesOk_lookup {B : Type} (x : FermionicArray B) (h : PhasesOk x) (s : Sector) :
    lookupA x.phases s = none ∨ lookupA x.phases s = some (-1) :=
  lookupA_all_neg_one x.phases (fun sp hsp => (h sp hsp).1) s

theorem phasesOk_phaseVal {B : Type} (x : FermionicArray B) (h : PhasesOk x) (s : Sector) :
    phaseVal x s = 1 ∨ phaseVal x s = -1 := by
  unfold phaseVal
  cases phasesOk_lookup x h s with
  | inl hnone => rw [hnone]; exact Or.inl rfl
  | inr hsome => rw [hsome]; exact Or.inr rfl

theorem phasesOk_lookup_eq {B : Type} (x : FermionicArray B) (h : PhasesOk x) (s : Sector) :
    lookupA x.phases s = if phaseVal x s = -1 then some (-1) else none := by
  cases phasesOk_lookup x h s with
  | inl hnone => simp [hnone, phaseVal]
  | inr hsome => simp [hsome, phaseVal]


/-! ### Per-operation phase lookups -/

theorem lookupA_eq_none {κ α : Type} [DecidableEq κ] (l : List (κ × α)) (k : κ)
    (h : ∀ kv ∈ l, kv.1 ≠ k) : lookupA l k = none := by
  induction l with
  | nil => rfl
  | cons hd tl ih =>
    obtain ⟨k2, v⟩ := hd
    have hne : k2 ≠ k := h (k2, v) (List.mem_cons_self _ _)
    simp only [lookupA, if_neg hne]
    exact ih (fun kv hkv => h kv (List.mem_cons_of_mem _ hkv))

/-- Lookup after a fold that multiplies each key's phase by a per-key
sign (the `phase_virtual_transpose` and `conj` loop shape). -/
theorem foldUpd_mulSign_lookup (st : List (Sector × Int)) (l : List Sector)
    (c : Sector → Int) (hnd : l.Nodup) (s : Sector) (hs : s ∈ l)
    (hok : lookupA st s = none ∨ lookupA st s = some (-1))
    (hc : c s = 1 ∨ c s = -1) :
    lookupA (foldUpd (fun t old =>
        if (old.getD 1) * c t = 1 then Upd.del
        else Upd.put ((old.getD 1) * c t)) st l) s
      = if ((lookupA st s).getD 1) * c s = -1 then some (-1) else none := by
  rw [lookupA_foldUpd_mem _ st l s hnd hs]
  rcases hok with ho | ho <;> rcases hc with hcc | hcc <;>
    simp [ho, hcc, updLookup]

/-- Lookup after a fold that flips each key's phase when a per-key parity
criterion holds (the `phase_flip` loop shape). -/
theorem foldUpd_flip_lookup (st : List (Sector × Int)) (l : List Sector)
    (w : Sector → Prop) [DecidablePred w] (hnd : l.Nodup) (s : Sector) (hs : s ∈ l)
    (hok : lookupA st s = none ∨ lookupA st s = some (-1)) :
    lookupA (foldUpd (fun t old =>
        if w t then (if -(old.getD 1) = 1 then Upd.del else Upd.put (-(old.getD 1)))
        else Upd.keep) st l) s
      = if ((lookupA st s).getD 1) * (if w s then -1 else 1) = -1
        then some (-1) else none := by
  rw [lookupA_foldUpd_mem _ st l s hnd hs]
  by_cases hw : w s <;> rcases hok with ho | ho <;> simp [ho, hw, updLookup]

/-- The phase map stored by a phased transpose, looked up at the permuted
key of a stored sector. -/
theorem transpose_phases_lookup {B : Type} (be : Backend B) (x : FermionicArray B)
    (p q : List Nat) (hperm : InvPerm p q x.ndim)
    (hlen : ∀ s ∈ x.sectors, s.length = x.ndim) (s : Sector) (hs : s ∈ x.sectors) :
    lookupA (x.transpose be (some p) true).phases (permuted s p)
      = if phaseVal x s * calc_phase_permutation (x.parities s) (some p) = -1
        then some (-1) else none := by
  have hinj : ∀ k ∈ x.blocks.map Prod.fst, permuted k p = permuted s p → k = s := by
    intro k hk he
    exact permuted_inj p q x.ndim hperm k s (hlen k hk) (hlen s hs) he
  have h1 := lookupA_filterMap_cond
    (fun t => ((lookupA x.phases t).getD 1)
      * calc_phase_permutation (x.parities t) (some p) = -1)
    (fun t => permuted t p) (-1) x.blocks s hinj
  have h2 : (x.transpose be (some p) true).phases
      = x.blocks.filterMap (fun sb =>
        if ((lookupA x.phases sb.1).getD 1)
            * calc_phase_permutation (x.parities sb.1) (some p) = -1
        then some (permuted sb.1 p, -1) else none) := rfl
  rw [h2, h1]
  have hmem : s ∈ x.blocks.map Prod.fst := hs
  simp only [hmem, true_and]
  rfl

/-! ### Invariant preservation machinery -/

theorem sign_mul_sign (a b : Int) (ha : a = 1 ∨ a = -1) (hb : b = 1 ∨ b = -1) :
    a * b = 1 ∨ a * b = -1 := by
  rcases ha with h1 | h1 <;> rcases hb with h2 | h2 <;> subst h1 <;> subst h2 <;> simp

theorem axesSign_cases {B : Type} (x : FermionicArray B) (axs : List Nat) (s : Sector) :
    FermionicArray.axesSign x axs s = 1 ∨ FermionicArray.axesSign x axs s = -1 := by
  unfold FermionicArray.axesSign
  split
  · exact Or.inr rfl
  · exact Or.inl rfl

theorem keys_map_val {α β : Type} (h : Sector → α → β) (l : List (Sector × α)) :
    (l.map (fun kv => (kv.1, h kv.1 kv.2))).map Prod.fst = l.map Prod.fst := by
  induction l with
  | nil => rfl
  | cons hd tl ih => simp [ih]

theorem put_flip_aux (o : Option Int) (v : Int) (ho : o = none ∨ o = some (-1))
    (hput : (if -(o.getD 1) = 1 then Upd.del else Upd.put (-(o.getD 1))) = Upd.put v) :
    v = -1 := by
  rcases ho with ho | ho <;> subst ho <;> simp at hput <;> omega

theorem put_mulSign_aux (o : Option Int) (c v : Int) (ho : o = none ∨ o = some (-1))
    (hc : c = 1 ∨ c = -1)
    (hput : (if (o.getD 1) * c = 1 then Upd.del
        else Upd.put ((o.getD 1) * c)) = Upd.put v) :
    v = -1 := by
  rcases ho with ho | ho <;> rcases hc with hc | hc <;> subst ho <;> subst hc <;>
    simp at hput <;> omega

/-- A fold of per-key updates keeps the phase invariant as long as every
stored value is −1 and every touched key lies in the key universe `K`. -/
theorem foldUpd_phasesOk (st : List (Sector × Int)) (l : List Sector)
    (K : List Sector) (g : Sector → Option Int → Upd)
    (hst : ∀ sp ∈ st, sp.2 = -1 ∧ sp.1 ∈ K)
    (hl : ∀ s ∈ l, s ∈ K)
    (hg : ∀ s o v, (o = none ∨ o = some (-1)) → g s o = Upd.put v → v = -1) :
    ∀ sp ∈ foldUpd g st l, sp.2 = -1 ∧ sp.1 ∈ K := by
  induction l generalizing st with
  | nil => exact hst
  | cons s tl ih =>
    refine ih (stepUpd g st s) ?_ (fun t ht => hl t (List.mem_cons_of_mem _ ht))
    intro sp hsp
    cases mem_stepUpd g st s sp hsp with
    | inl hmem => exact hst sp hmem
    | inr hput =>
      obtain ⟨hk, hv⟩ := hput
      have ho : lookupA st s = none ∨ lookupA st s = some (-1) :=
        lookupA_all_neg_one st (fun sp2 hsp2 => (hst sp2 hsp2).1) s
      exact ⟨hg s (lookupA st s) sp.2 ho hv, hk ▸ hl s (List.mem_cons_self _ _)⟩

theorem phase_flip_phasesOk {B : Type} (x : FermionicArray B) (axs : List Nat)
    (hok : PhasesOk x) : PhasesOk (x.phase_flip axs) := by
  intro sp hsp
  refine foldUpd_phasesOk x.phases x.sectors x.sectors _ hok (fun t ht => ht)
    ?_ sp hsp
  intro s o v ho hput
  by_cases hw : (axs.countP (fun ax => x.parity (s.getD ax 0))) % 2 = 1
  · rw [if_pos hw] at hput
    exact put_flip_aux o v ho hput
  · rw [if_neg hw] at hput
    cases hput

theorem phase_virtual_transpose_phasesOk {B : Type} (x : FermionicArray B)
    (axes? : Option (List Nat)) (hok : PhasesOk x) :
    PhasesOk (x.phase_virtual_transpose axes?) := by
  intro sp hsp
  refine foldUpd_phasesOk x.phases x.sectors x.sectors _ hok (fun t ht => ht)
    ?_ sp hsp
  intro s o v ho hput
  exact put_mulSign_aux o _ v ho (calc_phase_permutation_cases (x.parities s) axes?) hput

theorem conj_phasesOk {B : Type} (be : Backend B) (x : FermionicArray B)
    (ph : Bool) (hok : PhasesOk x) : PhasesOk (x.conj be ph) := by
  intro sp hsp
  have hsec : (x.conj be ph).sectors = x.sectors :=
    keys_map_val (fun _ b => be.bconj b) x.blocks
  cases ph with
  | false =>
    have hsp2 : sp ∈ x.phases := hsp
    exact ⟨(hok sp hsp2).1, hsec ▸ (hok sp hsp2).2⟩
  | true =>
    have hres := foldUpd_phasesOk x.phases x.sectors x.sectors
      (fun s old =>
        if (old.getD 1) * (calc_phase_permutation (x.parities s) none
            * FermionicArray.axesSign x (FermionicArray.conjFlipAxes x) s) = 1
        then Upd.del
        else Upd.put ((old.getD 1) * (calc_phase_permutation (x.parities s) none
            * FermionicArray.axesSign x (FermionicArray.conjFlipAxes x) s)))
      hok (fun t ht => ht)
      (fun s o v ho hput => put_mulSign_aux o _ v ho
        (sign_mul_sign _ _ (calc_phase_permutation_cases (x.parities s) none)
          (axesSign_cases x (FermionicArray.conjFlipAxes x) s)) hput)
      sp hsp
    exact ⟨hres.1, hsec ▸ hres.2⟩

theorem keys_map_reindex {α β : Type} (g : Sector → Sector) (f : α → β)
    (l : List (Sector × α)) :
    (l.map (fun kv => (g kv.1, f kv.2))).map Prod.fst = (l.map Prod.fst).map g := by
  induction l with
  | nil => rfl
  | cons hd tl ih => simp [ih]

theorem transpose_phasesOk {B : Type} (be : Backend B) (x : FermionicArray B)
    (axes? : Option (List Nat)) (ph : Bool) (hok : PhasesOk x) :
    PhasesOk (x.transpose be axes? ph) := by
  intro sp hsp
  cases ph with
  | true =>
    have h := mem_filterMap_cond
      (fun t => ((lookupA x.phases t).getD 1)
        * calc_phase_permutation (x.parities t)
            (some (axes?.getD ((List.range x.ndim).reverse))) = -1)
      (fun t => permuted t (axes?.getD ((List.range x.ndim).reverse))) (-1)
      x.blocks sp hsp
    obtain ⟨hv, k, hk, hkey⟩ := h
    refine ⟨hv, ?_⟩
    show sp.1 ∈ (x.transpose be axes? true).sectors
    have hsec : (x.transpose be axes? true).sectors
        = (x.blocks.map Prod.fst).map
            (fun t => permuted t (axes?.getD ((List.range x.ndim).reverse))) :=
      keys_map_reindex (fun t => permuted t (axes?.getD ((List.range x.ndim).reverse)))
        (fun b => be.btranspose (axes?.getD ((List.range x.ndim).reverse)) b) x.blocks
    rw [hsec, hkey]
    exact List.mem_map_of_mem _ hk
  | false =>
    have hsp2 : sp ∈ x.phases.map (fun sp =>
        (permuted sp.1 (axes?.getD ((List.range x.ndim).reverse)), sp.2)) := hsp
    rw [List.mem_map] at hsp2
    obtain ⟨⟨k, v⟩, hkv, he⟩ := hsp2
    obtain ⟨hv, hkmem⟩ := hok (k, v) hkv
    have hsec : (x.transpose be axes? false).sectors
        = (x.blocks.map Prod.fst).map
            (fun t => permuted t (axes?.getD ((List.range x.ndim).reverse))) :=
      keys_map_reindex (fun t => permuted t (axes?.getD ((List.range x.ndim).reverse)))
        (fun b => be.btranspose (axes?.getD ((List.range x.ndim).reverse)) b) x.blocks
    constructor
    · rw [← he]
      exact hv
    · rw [← he, hsec]
      exact List.mem_map_of_mem _ hkmem

theorem daggerCore_phasesOk {B : Type} (be : Backend B) (x : FermionicArray B) :
    PhasesOk (FermionicArray.daggerCore be x) := by
  intro sp hsp
  have h := mem_filterMap_cond (fun t => lookupA x.phases t = some (-1))
    (fun t => t.reverse) (-1) x.blocks sp hsp
  obtain ⟨hv, k, hk, hkey⟩ := h
  refine ⟨hv, ?_⟩
  show sp.1 ∈ (FermionicArray.daggerCore be x).sectors
  have hsec : (FermionicArray.daggerCore be x).sectors
      = (x.blocks.map Prod.fst).map (fun t => t.reverse) :=
    keys_map_reindex (fun t => t.reverse)
      (fun b => be.btransposeD (be.bconj b)) x.blocks
  rw [hsec, hkey]
  exact List.mem_map_of_mem _ hk

theorem dagger_phasesOk {B : Type} (be : Backend B) (x : FermionicArray B)
    (ph : Bool) : PhasesOk (x.dagger be ph) := by
  cases ph with
  | true =>
    exact phase_flip_phasesOk (FermionicArray.daggerCore be x) _ (daggerCore_phasesOk be x)
  | false => exact daggerCore_phasesOk be x

/-! ### Transpose round-trip support -/

theorem invPerm_symm (p q : List Nat) (n : Nat) (h : InvPerm p q n) : InvPerm q p n := by
  obtain ⟨hp, hq, hpn, hqn, hqp, hpq⟩ := h
  exact ⟨hq, hp, hqn, hpn, hpq, hqp⟩

theorem sectors_transpose {B : Type} (be : Backend B) (x : FermionicArray B)
    (axes? : Option (List Nat)) (ph : Bool) :
    (x.transpose be axes? ph).sectors
      = x.sectors.map (fun t => permuted t (axes?.getD ((List.range x.ndim).reverse))) := by
  cases ph <;>
    exact keys_map_reindex (fun t => permuted t (axes?.getD ((List.range x.ndim).reverse)))
      (fun b => be.btranspose (axes?.getD ((List.range x.ndim).reverse)) b) x.blocks

theorem transpose_phaseVal {B : Type} (be : Backend B) (x : FermionicArray B)
    (p q : List Nat) (hperm : InvPerm p q x.ndim)
    (hlen : ∀ s ∈ x.sectors, s.length = x.ndim) (hok : PhasesOk x)
    (s : Sector) (hs : s ∈ x.sectors) :
    phaseVal (x.transpose be (some p) true) (permuted s p)
      = phaseVal x s * calc_phase_permutation (x.parities s) (some p) := by
  show (lookupA (x.transpose be (some p) true).phases (permuted s p)).getD 1 = _
  rw [transpose_phases_lookup be x p q hperm hlen s hs]
  rcases phasesOk_phaseVal x hok s with h | h <;>
    rcases calc_phase_permutation_cases (x.parities s) (some p) with hc | hc <;>
    rw [h, hc] <;> simp

theorem transpose_ndim {B : Type} (be : Backend B) (x : FermionicArray B)
    (axes? : Option (List Nat)) (ph : Bool) :
    (x.transpose be axes? ph).ndim
      = (axes?.getD ((List.range x.ndim).reverse)).length := by
  cases ph
  · show (permuted x.indices (axes?.getD ((List.range x.ndim).reverse))).length = _
    rw [permuted_length]
  · show (permuted x.indices (axes?.getD ((List.range x.ndim).reverse))).length = _
    rw [permuted_length]

theorem transpose_parity {B : Type} (be : Backend B) (x : FermionicArray B)
    (axes? : Option (List Nat)) (ph : Bool) :
    (x.transpose be axes? ph).parity = x.parity := by
  cases ph <;> rfl

/-! ### Identity-permutation and per-stage structure lemmas -/

theorem invPerm_range (n : Nat) : InvPerm (List.range n) (List.range n) n := by
  have hg : ∀ i, i < n → (List.range n).getD i 0 = i := by
    intro i hi
    rw [List.getD_eq_getElem (List.range n) 0 (by rw [List.length_range]; exact hi),
      List.getElem_range]
  refine ⟨List.length_range n, List.length_range n, ?_, ?_, ?_, ?_⟩
  · intro i hi
    rw [hg i hi]
    exact hi
  · intro i hi
    rw [hg i hi]
    exact hi
  · intro i hi
    rw [hg i hi, hg i hi]
  · intro i hi
    rw [hg i hi, hg i hi]

theorem permuted_range_of_length {α : Type} [Inhabited α] (s : List α) (n : Nat)
    (h : s.length = n) : permuted s (List.range n) = s := by
  subst h
  exact permuted_range_self s

theorem getD_map_lt {α β : Type} (f : α → β) (l : List α) (i : Nat)
    (h : i < l.length) (d : β) (d2 : α) :
    (l.map f).getD i d = f (l.getD i d2) := by
  rw [List.getD_eq_getElem (l.map f) d (by rw [List.length_map]; exact h),
    List.getD_eq_getElem l d2 h, List.getElem_map]

theorem without_self (l : List Nat) : without l l = [] := by
  unfold without
  rw [List.filter_eq_nil_iff]
  intro a ha
  simp [List.elem_eq_true_of_mem ha, ha]

/-- `phaseVal` after a sign-multiplying fold. -/
theorem foldUpd_mulSign_phaseVal (st : List (Sector × Int)) (l : List Sector)
    (c : Sector → Int) (hnd : l.Nodup) (s : Sector) (hs : s ∈ l)
    (hok : lookupA st s = none ∨ lookupA st s = some (-1))
    (hc : c s = 1 ∨ c s = -1) :
    (lookupA (foldUpd (fun t old =>
        if (old.getD 1) * c t = 1 then Upd.del
        else Upd.put ((old.getD 1) * c t)) st l) s).getD 1
      = ((lookupA st s).getD 1) * c s := by
  rw [foldUpd_mulSign_lookup st l c hnd s hs hok hc]
  rcases hok with ho | ho <;> rcases hc with hcc | hcc <;> rw [ho, hcc] <;> simp

/-- `phaseVal` after a parity-conditional flip fold. -/
theorem foldUpd_flip_phaseVal (st : List (Sector × Int)) (l : List Sector)
    (w : Sector → Prop) [DecidablePred w] (hnd : l.Nodup) (s : Sector) (hs : s ∈ l)
    (hok : lookupA st s = none ∨ lookupA st s = some (-1)) :
    (lookupA (foldUpd (fun t old =>
        if w t then (if -(old.getD 1) = 1 then Upd.del else Upd.put (-(old.getD 1)))
        else Upd.keep) st l) s).getD 1
      = ((lookupA st s).getD 1) * (if w s then -1 else 1) := by
  rw [foldUpd_flip_lookup st l w hnd s hs hok]
  by_cases hw : w s <;> rcases hok with ho | ho <;> rw [ho] <;> simp [hw]

namespace FermionicArray

variable {B : Type}

theorem conj_parity (be : Backend B) (x : FermionicArray B) (ph : Bool) :
    (x.conj be ph).parity = x.parity := rfl

theorem conj_charge (be : Backend B) (x : FermionicArray B) (ph : Bool) :
    (x.conj be ph).charge = x.charge := rfl

theorem conj_ndim (be : Backend B) (x : FermionicArray B) (ph : Bool) :
    (x.conj be ph).ndim = x.ndim := by
  show (x.indices.map BlockIndex.conj).length = x.indices.length
  rw [List.length_map]

theorem conj_sectors (be : Backend B) (x : FermionicArray B) (ph : Bool) :
    (x.conj be ph).sectors = x.sectors :=
  keys_map_val (fun _ b => be.bconj b) x.blocks

theorem conj_size (be : Backend B) (x : FermionicArray B) (ph : Bool) :
    (x.conj be ph).size = x.size := by
  show ((x.indices.map BlockIndex.conj).map BlockIndex.sizeTotal).prod
    = (x.indices.map BlockIndex.sizeTotal).prod
  rw [List.map_map]
  rfl

theorem conj_phaseVal (be : Backend B) (x : FermionicArray B)
    (hnd : x.sectors.Nodup) (hok : PhasesOk x) (s : Sector) (hs : s ∈ x.sectors) :
    phaseVal (x.conj be true) s
      = phaseVal x s * (calc_phase_permutation (x.parities s) none
          * axesSign x (conjFlipAxes x) s) :=
  foldUpd_mulSign_phaseVal x.phases x.sectors
    (fun t => calc_phase_permutation (x.parities t) none
      * axesSign x (conjFlipAxes x) t) hnd s hs (phasesOk_lookup x hok s)
    (sign_mul_sign _ _ (calc_phase_permutation_cases (x.parities s) none)
      (axesSign_cases x (conjFlipAxes x) s))

theorem transpose_charge (be : Backend B) (x : FermionicArray B)
    (axes? : Option (List Nat)) (ph : Bool) :
    (x.transpose be axes? ph).charge = x.charge := by
  cases ph <;> rfl

theorem phase_flip_phaseVal (x : FermionicArray B) (axs : List Nat)
    (hnd : x.sectors.Nodup) (hok : PhasesOk x) (s : Sector) (hs : s ∈ x.sectors) :
    phaseVal (x.phase_flip axs) s = phaseVal x s * axesSign x axs s :=
  foldUpd_flip_phaseVal x.phases x.sectors
    (fun t => (axs.countP (fun ax => x.parity (t.getD ax 0))) % 2 = 1)
    hnd s hs (phasesOk_lookup x hok s)

theorem phase_virtual_transpose_phaseVal (x : FermionicArray B)
    (axes? : Option (List Nat)) (hnd : x.sectors.Nodup) (hok : PhasesOk x)
    (s : Sector) (hs : s ∈ x.sectors) :
    phaseVal (x.phase_virtual_transpose axes?) s
      = phaseVal x s * calc_phase_permutation (x.parities s) axes? :=
  foldUpd_mulSign_phaseVal x.phases x.sectors
    (fun t => calc_phase_permutation (x.parities t) axes?) hnd s hs
    (phasesOk_lookup x hok s) (calc_phase_permutation_cases (x.parities s) axes?)

/-- Resolution expressed via `phaseVal` under the phase invariant. -/
theorem phase_resolve_blocks (be : Backend B) (x : FermionicArray B) (hok : PhasesOk x) :
    (x.phase_resolve be).blocks
      = x.blocks.map (fun sb =>
          (sb.1, if phaseVal x sb.1 = -1 then be.bneg sb.2 else sb.2)) := by
  apply List.map_congr_left
  intro sb hsb
  rw [phasesOk_lookup_eq x hok sb.1]
  by_cases hc : phaseVal x sb.1 = -1 <;> simp [hc]

end FermionicArray

/-! ### Identity-permutation transpose structure -/

theorem transpose_range_indices {B : Type} (be : Backend B) (y : FermionicArray B)
    (n : Nat) (hyn : y.ndim = n) (ph : Bool) :
    (y.transpose be (some (List.range n)) ph).indices = y.indices := by
  cases ph
  · show permuted y.indices (List.range n) = y.indices
    exact permuted_range_of_length y.indices n hyn
  · show permuted y.indices (List.range n) = y.indices
    exact permuted_range_of_length y.indices n hyn

theorem map_transpose_range_id {B : Type} (be : Backend B) (y : FermionicArray B)
    (n : Nat) (hyl : ∀ s ∈ y.sectors, s.length = n)
    (hid : ∀ b : B, be.btranspose (List.range n) b = b) :
    y.blocks.map (fun sb => (permuted sb.1 (List.range n),
      be.btranspose (List.range n) sb.2)) = y.blocks := by
  have hcong : y.blocks.map (fun sb => (permuted sb.1 (List.range n),
      be.btranspose (List.range n) sb.2)) = y.blocks.map id := by
    apply List.map_congr_left
    intro sb hsb
    show (permuted sb.1 (List.range n), be.btranspose (List.range n) sb.2) = sb
    rw [permuted_range_of_length sb.1 n (hyl sb.1 (List.mem_map_of_mem Prod.fst hsb)),
      hid]
  rw [hcong, List.map_id]

theorem transpose_range_blocks {B : Type} (be : Backend B) (y : FermionicArray B)
    (n : Nat) (hyl : ∀ s ∈ y.sectors, s.length = n)
    (hid : ∀ b : B, be.btranspose (List.range n) b = b) (ph : Bool) :
    (y.transpose be (some (List.range n)) ph).blocks = y.blocks := by
  cases ph
  · exact map_transpose_range_id be y n hyl hid
  · exact map_transpose_range_id be y n hyl hid

theorem transpose_range_sectors {B : Type} (be : Backend B) (y : FermionicArray B)
    (n : Nat) (hyl : ∀ s ∈ y.sectors, s.length = n)
    (hid : ∀ b : B, be.btranspose (List.range n) b = b) (ph : Bool) :
    (y.transpose be (some (List.range n)) ph).sectors = y.sectors := by
  show (y.transpose be (some (List.range n)) ph).blocks.map Prod.fst
    = y.blocks.map Prod.fst
  rw [transpose_range_blocks be y n hyl hid ph]

theorem transpose_range_size {B : Type} (be : Backend B) (y : FermionicArray B)
    (n : Nat) (hyn : y.ndim = n) (ph : Bool) :
    (y.transpose be (some (List.range n)) ph).size = y.size := by
  unfold FermionicArray.size
  rw [transpose_range_indices be y n hyn ph]

theorem transpose_range_phaseVal {B : Type} (be : Backend B) (y : FermionicArray B)
    (n : Nat) (hyn : y.ndim = n) (hyl : ∀ s ∈ y.sectors, s.length = n)
    (hok : PhasesOk y) (s : Sector) (hs : s ∈ y.sectors) :
    phaseVal (y.transpose be (some (List.range n)) true) s = phaseVal y s := by
  have hperm : InvPerm (List.range n) (List.range n) y.ndim := by
    rw [hyn]
    exact invPerm_range n
  have hlen2 : ∀ t ∈ y.sectors, t.length = y.ndim := by
    intro t ht
    rw [hyn]
    exact hyl t ht
  have h1 := transpose_phaseVal be y (List.range n) (List.range n) hperm hlen2 hok s hs
  rw [permuted_range_of_length s n (hyl s hs)] at h1
  rw [h1, calc_phase_permutation_range (y.parities s) n, mul_one]

/-! ### Sign application and counting -/

/-- Multiply a resolved ±1 sign into a dense block. -/
def signApply {B : Type} (be : Backend B) (e : Int) (b : B) : B :=
  if e = -1 then be.bneg b else b

theorem sign_sq (a : Int) (h : a = 1 ∨ a = -1) : a * a = 1 := by
  rcases h with h | h <;> rw [h] <;> norm_num

theorem btdot_signApply {B : Type} (be : Backend B) (axesA axesB : List Nat)
    (hnegL : ∀ u v : B, be.btdot axesA axesB (be.bneg u) v
      = be.bneg (be.btdot axesA axesB u v))
    (hnegR : ∀ u v : B, be.btdot axesA axesB u (be.bneg v)
      = be.bneg (be.btdot axesA axesB u v))
    (hnn : ∀ b : B, be.bneg (be.bneg b) = b)
    (e1 e2 : Int) (h1 : e1 = 1 ∨ e1 = -1) (h2 : e2 = 1 ∨ e2 = -1)
    (hp : e1 * e2 = 1) (u v : B) :
    be.btdot axesA axesB (signApply be e1 u) (signApply be e2 v)
      = be.btdot axesA axesB u v := by
  rcases h1 with h1 | h1 <;> rcases h2 with h2 | h2 <;> rw [h1] at hp ⊢ <;>
    rw [h2] at hp ⊢ <;> unfold signApply <;> simp at hp ⊢ <;>
    rw [hnegL, hnegR, hnn]

theorem entries_eq_of_nodup_keys {α : Type} (l : List (Sector × α))
    (hnd : (l.map Prod.fst).Nodup) (u v : Sector × α)
    (hu : u ∈ l) (hv : v ∈ l) (he : u.1 = v.1) : u = v := by
  induction l with
  | nil => cases hu
  | cons hd tl ih =>
    rw [List.map_cons, List.nodup_cons] at hnd
    cases hu with
    | head =>
      cases hv with
      | head => rfl
      | tail _ hv2 =>
        exact absurd (he ▸ List.mem_map_of_mem Prod.fst hv2) hnd.1
    | tail _ hu2 =>
      cases hv with
      | head =>
        exact absurd (he ▸ List.mem_map_of_mem Prod.fst hu2) hnd.1
      | tail _ hv2 => exact ih hnd.2 hu2 hv2

theorem countP_filter_split {α : Type} (l : List α) (P g : α → Bool) :
    ((l.filter P).countP g) + ((l.filter (fun a => !P a)).countP g)
      = l.countP g := by
  induction l with
  | nil => rfl
  | cons a tl ih =>
    by_cases hp : P a = true <;>
      simp [List.filter_cons, hp, List.countP_cons, ← ih] <;> omega

theorem countP_range_getD (s : List Int) (n : Nat) (h : s.length = n)
    (g : Int → Bool) :
    (List.range n).countP (fun ax => g (s.getD ax 0)) = s.countP g := by
  have h2 : (List.range n).map (fun ax => s.getD ax 0) = s :=
    permuted_range_of_length s n h
  have h3 := List.countP_map g (fun ax => s.getD ax 0) (List.range n)
  rw [h2] at h3
  rw [h3]
  rfl

theorem calc_phase_permutation_none (pa : List Bool) (n : Nat) (h : pa.length = n) :
    calc_phase_permutation pa none
      = calc_phase_permutation pa (some ((List.range n).reverse)) := by
  unfold calc_phase_permutation
  rw [h]
  rfl


/-! ### Congruence for the symmetric contraction -/

theorem tdsym_inner_congr {B : Type} (be : Backend B)
    (axesA axesB leftA rightB : List Nat) (sa1 sa2 : Sector × B)
    (hkey : sa1.1 = sa2.1) (lb1 lb2 : List (Sector × B))
    (hrel : List.Forall₂ (fun w z => w.1 = z.1
      ∧ (permuted sa1.1 axesA = permuted w.1 axesB →
         be.btdot axesA axesB sa1.2 w.2 = be.btdot axesA axesB sa2.2 z.2)) lb1 lb2) :
    ∀ acc : List (Sector × B),
    lb1.foldl (fun acc2 sb =>
      if permuted sa1.1 axesA = permuted sb.1 axesB then
        match lookupA acc2 (permuted sa1.1 leftA ++ permuted sb.1 rightB) with
        | some v => setA acc2 (permuted sa1.1 leftA ++ permuted sb.1 rightB)
            (be.badd v (be.btdot axesA axesB sa1.2 sb.2))
        | none => acc2 ++ [(permuted sa1.1 leftA ++ permuted sb.1 rightB,
            be.btdot axesA axesB sa1.2 sb.2)]
      else acc2) acc
    = lb2.foldl (fun acc2 sb =>
      if permuted sa2.1 axesA = permuted sb.1 axesB then
        match lookupA acc2 (permuted sa2.1 leftA ++ permuted sb.1 rightB) with
        | some v => setA acc2 (permuted sa2.1 leftA ++ permuted sb.1 rightB)
            (be.badd v (be.btdot axesA axesB sa2.2 sb.2))
        | none => acc2 ++ [(permuted sa2.1 leftA ++ permuted sb.1 rightB,
            be.btdot axesA axesB sa2.2 sb.2)]
      else acc2) acc := by
  induction hrel with
  | nil =>
    intro acc
    rfl
  | @cons w z tl1 tl2 hwz htail ih =>
    intro acc
    rw [List.foldl_cons, List.foldl_cons]
    have hstep : (if permuted sa1.1 axesA = permuted w.1 axesB then
        match lookupA acc (permuted sa1.1 leftA ++ permuted w.1 rightB) with
        | some v => setA acc (permuted sa1.1 leftA ++ permuted w.1 rightB)
            (be.badd v (be.btdot axesA axesB sa1.2 w.2))
        | none => acc ++ [(permuted sa1.1 leftA ++ permuted w.1 rightB,
            be.btdot axesA axesB sa1.2 w.2)]
        else acc)
        = (if permuted sa2.1 axesA = permuted z.1 axesB then
        match lookupA acc (permuted sa2.1 leftA ++ permuted z.1 rightB) with
        | some v => setA acc (permuted sa2.1 leftA ++ permuted z.1 rightB)
            (be.badd v (be.btdot axesA axesB sa2.2 z.2))
        | none => acc ++ [(permuted sa2.1 leftA ++ permuted z.1 rightB,
            be.btdot axesA axesB sa2.2 z.2)]
        else acc) := by
      rw [show sa2.1 = sa1.1 from hkey.symm, show z.1 = w.1 from hwz.1.symm]
      by_cases hcond : permuted sa1.1 axesA = permuted w.1 axesB
      · rw [if_pos hcond, if_pos hcond, hwz.2 hcond]
      · rw [if_neg hcond, if_neg hcond]
    rw [hstep]
    exact ih _
  
theorem tdsym_outer_congr {B : Type} (be : Backend B)
    (axesA axesB leftA rightB : List Nat) (lb1 lb2 : List (Sector × B))
    (la1 la2 : List (Sector × B))
    (hrel : List.Forall₂ (fun u v => u.1 = v.1
      ∧ List.Forall₂ (fun w z => w.1 = z.1
          ∧ (permuted u.1 axesA = permuted w.1 axesB →
             be.btdot axesA axesB u.2 w.2 = be.btdot axesA axesB v.2 z.2)) lb1 lb2)
      la1 la2) :
    ∀ acc : List (Sector × B),
    la1.foldl (fun acc sa => lb1.foldl (fun acc2 sb =>
      if permuted sa.1 axesA = permuted sb.1 axesB then
        match lookupA acc2 (permuted sa.1 leftA ++ permuted sb.1 rightB) with
        | some v => setA acc2 (permuted sa.1 leftA ++ permuted sb.1 rightB)
            (be.badd v (be.btdot axesA axesB sa.2 sb.2))
        | none => acc2 ++ [(permuted sa.1 leftA ++ permuted sb.1 rightB,
            be.btdot axesA axesB sa.2 sb.2)]
      else acc2) acc) acc
    = la2.foldl (fun acc sa => lb2.foldl (fun acc2 sb =>
      if permuted sa.1 axesA = permuted sb.1 axesB then
        match lookupA acc2 (permuted sa.1 leftA ++ permuted sb.1 rightB) with
        | some v => setA acc2 (permuted sa.1 leftA ++ permuted sb.1 rightB)
            (be.badd v (be.btdot axesA axesB sa.2 sb.2))
        | none => acc2 ++ [(permuted sa.1 leftA ++ permuted sb.1 rightB,
            be.btdot axesA axesB sa.2 sb.2)]
      else acc2) acc) acc := by
  induction hrel with
  | nil =>
    intro acc
    rfl
  | @cons u v tl1 tl2 huv htail ih =>
    intro acc
    rw [List.foldl_cons, List.foldl_cons,
      tdsym_inner_congr be axesA axesB leftA rightB u v huv.1 lb1 lb2 huv.2 acc]
    exact ih _

theorem tensordot_symmetric_congr {B : Type} (be : Backend B)
    (a1 a2 b1 b2 : FermionicArray B) (axesA axesB : List Nat) (n : Nat)
    (hna1 : a1.ndim = n) (hna2 : a2.ndim = n) (hnb1 : b1.ndim = n) (hnb2 : b2.ndim = n)
    (hpar : a1.parity = a2.parity)
    (hia : permuted a1.indices (without (List.range n) axesA)
         = permuted a2.indices (without (List.range n) axesA))
    (hib : permuted b1.indices (without (List.range n) axesB)
         = permuted b2.indices (without (List.range n) axesB))
    (hca : a1.charge = a2.charge) (hcb : b1.charge = b2.charge)
    (hrel : List.Forall₂ (fun u v => u.1 = v.1
      ∧ List.Forall₂ (fun w z => w.1 = z.1
          ∧ (permuted u.1 axesA = permuted w.1 axesB →
             be.btdot axesA axesB u.2 w.2 = be.btdot axesA axesB v.2 z.2))
        b1.blocks b2.blocks) a1.blocks a2.blocks) :
    tensordot_symmetric be a1 b1 axesA axesB
      = tensordot_symmetric be a2 b2 axesA axesB := by
  simp only [tensordot_symmetric]
  rw [hna1, hna2, hnb1, hnb2, hpar, hia, hib, hca, hcb]
  congr 1
  exact tdsym_outer_congr be axesA axesB (without (List.range n) axesA)
    (without (List.range n) axesB) b1.blocks b2.blocks a1.blocks a2.blocks hrel []

theorem drop_range_len (n : Nat) : (List.range n).drop n = [] := by
  have h := List.drop_length (List.range n)
  rw [List.length_range] at h
  exact h

/-- Full contraction over all `n` axes, with the axes bookkeeping of
`tensordot_fermionic` evaluated away. -/
theorem tensordot_full {B : Type} (be : Backend B) (a b : FermionicArray B) (n : Nat)
    (ha : a.ndim = n) (hb : b.ndim = n) :
    tensordot_fermionic be a b (Sum.inl n)
      = Except.ok (
        if (a.transpose be (some (List.range n)) true).size
            ≤ ((b.transpose be (some (List.range n)) true).phase_virtual_transpose
                (some ((List.range n).reverse))).size then
          tensordot_symmetric be
            (((a.transpose be (some (List.range n)) true).phase_flip
              ((List.range n).filter (fun ax =>
                ((a.transpose be (some (List.range n)) true).indices.getD
                  ax default).flow))).phase_resolve be)
            (((b.transpose be (some (List.range n)) true).phase_virtual_transpose
                (some ((List.range n).reverse))).phase_resolve be)
            (List.range n) (List.range n)
        else
          tensordot_symmetric be
            ((a.transpose be (some (List.range n)) true).phase_resolve be)
            ((((b.transpose be (some (List.range n)) true).phase_virtual_transpose
                (some ((List.range n).reverse))).phase_flip
              ((List.range n).filter (fun ax =>
                !((((b.transpose be (some (List.range n)) true).phase_virtual_transpose
                  (some ((List.range n).reverse))).indices.getD
                    ax default).flow)))).phase_resolve be)
            (List.range n) (List.range n)) := by
  unfold tensordot_fermionic parseAxes
  simp only [ha, hb, Nat.sub_self, List.drop_zero, without_self, List.nil_append,
    List.append_nil, List.length_range, Bind.bind, Except.bind, Pure.pure, Except.pure,
    transpose_ndim, Option.getD_some, drop_range_len]
  by_cases hsize : (a.transpose be (some (List.range n)) true).size
      ≤ ((b.transpose be (some (List.range n)) true).phase_virtual_transpose
          (some ((List.range n).reverse))).size
  · rw [if_pos hsize, if_pos hsize]
  · rw [if_neg hsize, if_neg hsize]

theorem forall₂_map_map {α β γ : Type} (R : β → γ → Prop) (f : α → β) (g : α → γ)
    (l : List α) (h : ∀ a ∈ l, R (f a) (g a)) :
    List.Forall₂ R (l.map f) (l.map g) := by
  induction l with
  | nil => exact List.Forall₂.nil
  | cons a tl ih =>
    exact List.Forall₂.cons (h a (List.mem_cons_self _ _))
      (ih (fun a2 ha2 => h a2 (List.mem_cons_of_mem _ ha2)))

theorem axesSign_congr {B : Type} (x y : FermionicArray B) (hpar : x.parity = y.parity)
    (axs : List Nat) (s : Sector) :
    FermionicArray.axesSign x axs s = FermionicArray.axesSign y axs s := by
  unfold FermionicArray.axesSign
  rw [hpar]

/-- The two flow-filtered halves of the axes contribute a combined sign
of +1 on sectors of even total parity. -/
theorem axesSign_partition {B : Type} (x : FermionicArray B) (n : Nat) (s : Sector)
    (hsl : s.length = n) (heven : (s.countP x.parity) % 2 = 0) :
    FermionicArray.axesSign x
        ((List.range n).filter (fun ax => (x.indices.getD ax default).flow)) s
      * FermionicArray.axesSign x
        ((List.range n).filter (fun ax => !(x.indices.getD ax default).flow)) s
      = 1 := by
  unfold FermionicArray.axesSign
  have hsum := countP_filter_split (List.range n)
    (fun ax => (x.indices.getD ax default).flow)
    (fun ax => x.parity (s.getD ax 0))
  have htot := countP_range_getD s n hsl x.parity
  rw [htot] at hsum
  by_cases h1 : (((List.range n).filter (fun ax => (x.indices.getD ax default).flow)).countP
      (fun ax => x.parity (s.getD ax 0))) % 2 = 1 <;>
    by_cases h2 : (((List.range n).filter (fun ax => !(x.indices.getD ax default).flow)).countP
      (fun ax => x.parity (s.getD ax 0))) % 2 = 1
  · rw [if_pos h1, if_pos h2]
    norm_num
  · exfalso
    omega
  · exfalso
    omega
  · rw [if_neg h1, if_neg h2]
    norm_num

/-! ## Claim theorems -/

/-- C7: `phase_resolve` negates the block of every sector carrying a
buffered −1 phase (per-sector), empties the phase map, and a second
`phase_resolve` immediately after the first changes nothing. -/
theorem phase_resolve_spec {B : Type} (be : Backend B) (x : FermionicArray B) :
    (x.phase_resolve be).phases = []
    ∧ (∀ s : Sector, lookupA (x.phase_resolve be).blocks s
        = (lookupA x.blocks s).map (fun b =>
            if lookupA x.phases s = some (-1) then be.bneg b else b))
    ∧ (x.phase_resolve be).phase_resolve be = x.phase_resolve be := by
  refine ⟨rfl, ?_, ?_⟩
  · intro s
    exact lookupA_map_val
      (fun k b => if lookupA x.phases k = some (-1) then be.bneg b else b) x.blocks s
  · unfold FermionicArray.phase_resolve
    simp [lookupA]

/-- C10: `transpose` with the axes argument omitted behaves exactly like
`transpose` with the full axis reversal `(ndim−1, …, 0)`, for the data
and the phase bookkeeping alike. -/
theorem transpose_default_axes {B : Type} (be : Backend B) (x : FermionicArray B)
    (phase : Bool) :
    x.transpose be none phase
      = x.transpose be (some ((List.range x.ndim).reverse)) phase := rfl


/-! ### Concrete input arrays for witnesses and counterexamples -/

/-- A 2-axis array: axes with chargemaps `{0: 2}` (flow `false`) and
`{1: 1}` (flow `false`), one block. -/
def exA : FermionicArray Int :=
  { parity := intOdd,
    indices := [⟨[(0, 2)], false⟩, ⟨[(1, 1)], false⟩],
    charge := 1,
    blocks := [([0, 1], 2)],
    phases := [] }

/-- A 2-axis array carrying a nonempty phase map, satisfying the phase
invariant. -/
def exPh : FermionicArray Int :=
  { parity := intOdd,
    indices := [⟨[(1, 1)], false⟩, ⟨[(1, 1)], true⟩],
    charge := 0,
    blocks := [([1, 1], 5)],
    phases := [([1, 1], -1)] }

/-- A 1-axis dual array: chargemap `{1: 1}`, flow `true`, one block. -/
def exB : FermionicArray Int :=
  { parity := intOdd,
    indices := [⟨[(1, 1)], true⟩],
    charge := 1,
    blocks := [([1], 3)],
    phases := [] }

/-- C9 (amended): with an explicit pair of contracted axis lists,
`tensordot_fermionic` fails with the argument error exactly when the two
lists have unequal length; axis entries are normalized modulo the rank
(Python `%`), so no out-of-range error exists. -/
theorem tensordot_axes_error_spec {B : Type} (be : Backend B) (a b : FermionicArray B)
    (la lb : List Int) :
    (tensordot_fermionic be a b (Sum.inr (la, lb))).isOk = true
      ↔ la.length = lb.length := by
  unfold tensordot_fermionic parseAxes
  by_cases h : la.length = lb.length
  · have h2 : (la.map (fun x => (x % (a.ndim : Int)).toNat)).length
        = (lb.map (fun x => (x % (b.ndim : Int)).toNat)).length := by
      rw [List.length_map, List.length_map, h]
    simp [h, h2, Except.isOk, Except.toBool, Bind.bind, Except.bind, Pure.pure, Except.pure]
  · have h2 : ¬(la.map (fun x => (x % (a.ndim : Int)).toNat)).length
        = (lb.map (fun x => (x % (b.ndim : Int)).toNat)).length := by
      rw [List.length_map, List.length_map]
      exact h
    simp [h, h2, Except.isOk, Except.toBool, Bind.bind, Except.bind, Pure.pure, Except.pure]

/-- C9 counterexample: the axis index 5 is out of range for the rank-2
operand `exA`, yet the contraction succeeds (the index is wrapped modulo
the rank), contradicting the claim that out-of-range indices fail with an
argument error. -/
theorem tensordot_out_of_range_counterexample :
    exA.ndim = 2 ∧ ¬((5 : Int) < 2)
    ∧ (tensordot_fermionic intBe exA exB (Sum.inr ([5], [0]))).isOk = true := by
  refine ⟨rfl, by decide, ?_⟩
  decide

/-- C1 counterexample: with `b` the strictly smaller operand and its
contracted axis dual (flow `true`) carrying an odd charge, the source
flips `b`'s non-dual contracted axes ("use reverse flows"), not the dual
ones as the claim states: the code's contraction and the claim's staged
procedure produce blocks of opposite sign at a concrete input. -/
theorem tensordot_flip_convention_counterexample :
    exB.size < exA.size
    ∧ (exB.indices.getD 0 default).flow = true
    ∧ (tensordot_fermionic intBe exA exB (Sum.inr ([1], [0]))).toOption.map
        (fun c => lookupA c.blocks [0]) = some (some 6)
    ∧ (claimedTensordot intBe exA exB (Sum.inr ([1], [0]))).toOption.map
        (fun c => lookupA c.blocks [0]) = some (some (-6)) := by
  refine ⟨by decide, rfl, ?_, ?_⟩ <;> decide


/-- C1 (amended): `tensordot_fermionic` is exactly the staged procedure:
physically transpose `a` to `[uncontracted, contracted]` and `b` to
`[contracted, uncontracted]` with phases; virtually reverse the order of
`b`'s contracted axes (phase bookkeeping only, no data movement);
phase-flip the operand with the smaller element count (`a` on ties) — for
`a` its dual (flow `true`) contracted axes, for `b` its non-dual (flow
`false`) contracted axes (the source's reverse-flow convention, which the
claim misstates as dual-oriented for either operand); fully resolve the
lazy phases of both operands; only then delegate to the sign-unaware
symmetric block contraction. -/
theorem tensordot_fermionic_staged {B : Type} (be : Backend B)
    (a b : FermionicArray B) (axes : AxesArg) :
    tensordot_fermionic be a b axes = (parseAxes a.ndim b.ndim axes).map (fun parsed =>
      let a1 := a.transpose be (some (without (List.range a.ndim) parsed.1 ++ parsed.1)) true
      let b1 := b.transpose be (some (parsed.2 ++ without (List.range b.ndim) parsed.2)) true
      let newAxesA := (List.range a.ndim).drop (a.ndim - parsed.1.length)
      let newAxesB := List.range parsed.1.length
      let b2 := b1.phase_virtual_transpose
        (some ((List.range parsed.1.length).reverse
          ++ (List.range b1.ndim).drop parsed.1.length))
      let ab :=
        if a1.size ≤ b2.size then
          (a1.phase_flip (newAxesA.filter (fun ax => (a1.indices.getD ax default).flow)), b2)
        else
          (a1, b2.phase_flip (newAxesB.filter (fun ax => !(b2.indices.getD ax default).flow)))
      tensordot_symmetric be (ab.1.phase_resolve be) (ab.2.phase_resolve be)
        newAxesA newAxesB) := by
  unfold tensordot_fermionic
  cases h : parseAxes a.ndim b.ndim axes with
  | error e => simp [h, Bind.bind, Except.bind, Except.map]
  | ok parsed => simp [h, Bind.bind, Except.bind, Except.map, Pure.pure, Except.pure]

/-- A 2-axis array whose grouped axes have a non-dual leader and a dual
second member — the configuration claim C5 and the source treat
differently. -/
def exC5 : FermionicArray Int :=
  { parity := intOdd,
    indices := [⟨[(1, 1)], false⟩, ⟨[(1, 1)], true⟩],
    charge := 0,
    blocks := [([1, 1], 7)],
    phases := [] }

/-- C5 counterexample: fusing the group `(0, 1)` whose leading axis is
non-dual (flow `false`) while axis 1 disagrees (flow `true`): the claim's
procedure flips the disagreeing axis (negating the odd-parity block), but
the source only corrects groups whose leading axis is dual and leaves the
block untouched. -/
theorem fuse_flip_claim_counterexample :
    (exC5.indices.getD 0 default).flow = false
    ∧ (exC5.indices.getD 1 default).flow = true
    ∧ lookupA (exC5.fusePrepare intBe [[0, 1]]).blocks [1, 1] = some 7
    ∧ lookupA (claimedFusePrepare intBe exC5 [[0, 1]]).blocks [1, 1] = some (-7) := by
  decide

/-- C5 (amended): fermionic fuse is the fermionic preprocessing followed
by the sign-unaware symmetric fuse; the preprocessing corrects, within
groups whose leading axis is dual, the members whose flow disagrees
(groups with a non-dual leader get no flips), applies the virtual
reversal for dual-led groups, and fully resolves all lazy phases, so the
delegated-to symmetric fuse receives an empty phase map and the fused
result carries an empty phase map. -/
theorem fuse_staged_spec {B : Type} (be : Backend B) (x : FermionicArray B)
    (groups : List (List Nat)) :
    x.fuse be groups = symFuse be (x.fusePrepare be groups)
        (groups.map (fun g => g.map (posOf (fusePerm groups x.ndim))))
    ∧ (x.fusePrepare be groups).phases = []
    ∧ (x.fuse be groups).phases = [] := ⟨rfl, rfl, rfl⟩


/-- C3: `transpose(x, axes, phase=True)` permutes the indices, the sector
keys, and each dense block's axes by the permutation, and stores at the
permuted key of each sector the product of that sector's stored phase
with `calc_phase_permutation` of its parities under the permutation,
keeping only −1 results; `phase=False` performs the same data permutation
and only re-keys the existing phase entries, values unchanged. -/
theorem transpose_spec {B : Type} (be : Backend B) (x : FermionicArray B)
    (p q : List Nat) (hperm : InvPerm p q x.ndim)
    (hlen : ∀ s ∈ x.sectors, s.length = x.ndim) :
    (x.transpose be (some p) true).indices = permuted x.indices p
    ∧ (x.transpose be (some p) false).indices = permuted x.indices p
    ∧ (∀ s : Sector, s.length = x.ndim →
        lookupA (x.transpose be (some p) true).blocks (permuted s p)
          = (lookupA x.blocks s).map (be.btranspose p)
        ∧ lookupA (x.transpose be (some p) false).blocks (permuted s p)
          = (lookupA x.blocks s).map (be.btranspose p))
    ∧ (∀ s ∈ x.sectors,
        lookupA (x.transpose be (some p) true).phases (permuted s p)
          = if phaseVal x s * calc_phase_permutation (x.parities s) (some p) = -1
            then some (-1) else none)
    ∧ (x.transpose be (some p) false).phases
        = x.phases.map (fun sp => (permuted sp.1 p, sp.2)) := by
  have hinj : ∀ s : Sector, s.length = x.ndim →
      ∀ k ∈ x.blocks.map Prod.fst, permuted k p = permuted s p → k = s := by
    intro s hs k hk he
    exact permuted_inj p q x.ndim hperm k s (hlen k hk) hs he
  refine ⟨rfl, rfl, ?_, ?_, rfl⟩
  · intro s hs
    constructor
    · exact lookupA_map_reindex (fun t => permuted t p) (be.btranspose p)
        x.blocks s (hinj s hs)
    · exact lookupA_map_reindex (fun t => permuted t p) (be.btranspose p)
        x.blocks s (hinj s hs)
  · intro s hs
    exact transpose_phases_lookup be x p q hperm hlen s hs

/-- C3 witness: the specification instantiated at a concrete array and
the swap permutation. -/
theorem transpose_spec_witness :
    (InvPerm [1, 0] [1, 0] exA.ndim ∧ ∀ s ∈ exA.sectors, s.length = exA.ndim)
    ∧ ((exA.transpose intBe (some [1, 0]) true).indices = permuted exA.indices [1, 0]
    ∧ (exA.transpose intBe (some [1, 0]) false).indices = permuted exA.indices [1, 0]
    ∧ (∀ s : Sector, s.length = exA.ndim →
        lookupA (exA.transpose intBe (some [1, 0]) true).blocks (permuted s [1, 0])
          = (lookupA exA.blocks s).map (intBe.btranspose [1, 0])
        ∧ lookupA (exA.transpose intBe (some [1, 0]) false).blocks (permuted s [1, 0])
          = (lookupA exA.blocks s).map (intBe.btranspose [1, 0]))
    ∧ (∀ s ∈ exA.sectors,
        lookupA (exA.transpose intBe (some [1, 0]) true).phases (permuted s [1, 0])
          = if phaseVal exA s * calc_phase_permutation (exA.parities s) (some [1, 0]) = -1
            then some (-1) else none)
    ∧ (exA.transpose intBe (some [1, 0]) false).phases
        = exA.phases.map (fun sp => (permuted sp.1 [1, 0], sp.2))) :=
  ⟨⟨by decide, by decide⟩, transpose_spec intBe exA [1, 0] [1, 0] (by decide) (by decide)⟩


/-- C4: `phase_virtual_transpose` leaves indices, sector keys, and block
data unchanged, and for each stored sector its resulting phase equals the
phase the phased transpose would store at the permuted key of that
sector: exactly the phase bookkeeping of `transpose(axes, phase=True)`
with no data or key movement. -/
theorem phase_virtual_transpose_spec {B : Type} (be : Backend B)
    (x : FermionicArray B) (p q : List Nat) (hperm : InvPerm p q x.ndim)
    (hlen : ∀ s ∈ x.sectors, s.length = x.ndim)
    (hnd : x.sectors.Nodup) (hok : PhasesOk x) :
    (x.phase_virtual_transpose (some p)).indices = x.indices
    ∧ (x.phase_virtual_transpose (some p)).blocks = x.blocks
    ∧ ∀ s ∈ x.sectors,
        lookupA (x.phase_virtual_transpose (some p)).phases s
          = lookupA (x.transpose be (some p) true).phases (permuted s p) := by
  refine ⟨rfl, rfl, ?_⟩
  intro s hs
  rw [transpose_phases_lookup be x p q hperm hlen s hs]
  exact foldUpd_mulSign_lookup x.phases x.sectors
    (fun t => calc_phase_permutation (x.parities t) (some p)) hnd s hs
    (phasesOk_lookup x hok s) (calc_phase_permutation_cases (x.parities s) (some p))

/-- C4 witness: the virtual transpose agrees with the phased transpose's
bookkeeping at a concrete array and permutation. -/
theorem phase_virtual_transpose_spec_witness :
    (InvPerm [1, 0] [1, 0] exA.ndim ∧ (∀ s ∈ exA.sectors, s.length = exA.ndim)
      ∧ exA.sectors.Nodup ∧ PhasesOk exA)
    ∧ ((exA.phase_virtual_transpose (some [1, 0])).indices = exA.indices
    ∧ (exA.phase_virtual_transpose (some [1, 0])).blocks = exA.blocks
    ∧ ∀ s ∈ exA.sectors,
        lookupA (exA.phase_virtual_transpose (some [1, 0])).phases s
          = lookupA (exA.transpose intBe (some [1, 0]) true).phases (permuted s [1, 0])) :=
  ⟨⟨by decide, by decide, by decide, by decide⟩,
    phase_virtual_transpose_spec intBe exA [1, 0] [1, 0]
      (by decide) (by decide) (by decide) (by decide)⟩


/-- C8: every phase-touching operation — transpose (either phase mode),
phase_flip, phase_virtual_transpose, conj (either mode), dagger (either
mode), phase_resolve, and fuse — preserves the invariant that the phase
map stores only −1 values with keys among the currently stored sectors. -/
theorem phase_invariant_preserved {B : Type} (be : Backend B)
    (x : FermionicArray B) (hok : PhasesOk x) :
    (∀ (axes? : Option (List Nat)) (ph : Bool), PhasesOk (x.transpose be axes? ph))
    ∧ (∀ axs : List Nat, PhasesOk (x.phase_flip axs))
    ∧ (∀ axes? : Option (List Nat), PhasesOk (x.phase_virtual_transpose axes?))
    ∧ (∀ ph : Bool, PhasesOk (x.conj be ph))
    ∧ (∀ ph : Bool, PhasesOk (x.dagger be ph))
    ∧ PhasesOk (x.phase_resolve be)
    ∧ (∀ groups : List (List Nat), PhasesOk (x.fuse be groups)) := by
  refine ⟨?_, ?_, ?_, ?_, ?_, ?_, ?_⟩
  · intro axes? ph
    exact transpose_phasesOk be x axes? ph hok
  · intro axs
    exact phase_flip_phasesOk x axs hok
  · intro axes?
    exact phase_virtual_transpose_phasesOk x axes? hok
  · intro ph
    exact conj_phasesOk be x ph hok
  · intro ph
    exact dagger_phasesOk be x ph
  · intro sp hsp
    exact absurd hsp (List.not_mem_nil sp)
  · intro groups sp hsp
    exact absurd hsp (List.not_mem_nil sp)

/-- C8 witness: the invariant and its preservation at a concrete array
that carries a nonempty phase map. -/
theorem phase_invariant_preserved_witness :
    PhasesOk exPh
    ∧ ((∀ (axes? : Option (List Nat)) (ph : Bool),
          PhasesOk (exPh.transpose intBe axes? ph))
    ∧ (∀ axs : List Nat, PhasesOk (exPh.phase_flip axs))
    ∧ (∀ axes? : Option (List Nat), PhasesOk (exPh.phase_virtual_transpose axes?))
    ∧ (∀ ph : Bool, PhasesOk (exPh.conj intBe ph))
    ∧ (∀ ph : Bool, PhasesOk (exPh.dagger intBe ph))
    ∧ PhasesOk (exPh.phase_resolve intBe)
    ∧ (∀ groups : List (List Nat), PhasesOk (exPh.fuse intBe groups))) :=
  ⟨by decide, phase_invariant_preserved intBe exPh (by decide)⟩

/-- C6: a phased transpose followed by the phased transpose along the
inverse permutation returns the array to its original state, phase
bookkeeping included: indices and blocks are restored exactly, and the
phase map holds the same entry at every sector (the net phase of the
round trip is +1 for every sector). -/
theorem transpose_involution {B : Type} (be : Backend B) (x : FermionicArray B)
    (p q : List Nat) (hperm : InvPerm p q x.ndim)
    (hlen : ∀ s ∈ x.sectors, s.length = x.ndim) (hok : PhasesOk x)
    (hbt : ∀ b : B, be.btranspose q (be.btranspose p b) = b) :
    ((x.transpose be (some p) true).transpose be (some q) true).indices = x.indices
    ∧ ((x.transpose be (some p) true).transpose be (some q) true).blocks = x.blocks
    ∧ ∀ s : Sector,
        lookupA ((x.transpose be (some p) true).transpose be (some q) true).phases s
          = lookupA x.phases s := by
  have hxind : x.indices.length = x.ndim := rfl
  have hT1n : (x.transpose be (some p) true).ndim = x.ndim := by
    rw [transpose_ndim, Option.getD_some]
    exact hperm.1
  have hT1np : (x.transpose be (some p) true).ndim = p.length := by
    rw [transpose_ndim, Option.getD_some]
  have hpermT1 : InvPerm q p (x.transpose be (some p) true).ndim := by
    rw [hT1n]
    exact invPerm_symm p q x.ndim hperm
  have hsecT1 : (x.transpose be (some p) true).sectors
      = x.sectors.map (fun t => permuted t p) := by
    rw [sectors_transpose, Option.getD_some]
  have hlenT1 : ∀ t ∈ (x.transpose be (some p) true).sectors,
      t.length = (x.transpose be (some p) true).ndim := by
    intro t ht
    rw [hsecT1, List.mem_map] at ht
    obtain ⟨k, hk, he⟩ := ht
    rw [← he, permuted_length, hT1np]
  refine ⟨?_, ?_, ?_⟩
  · show permuted (permuted x.indices p) q = x.indices
    exact permuted_permuted p q x.ndim hperm x.indices hxind
  · have hT2 : ((x.transpose be (some p) true).transpose be (some q) true).blocks
        = (x.blocks.map (fun sb => (permuted sb.1 p, be.btranspose p sb.2))).map
            (fun sb => (permuted sb.1 q, be.btranspose q sb.2)) := rfl
    rw [hT2, List.map_map]
    have hcong : x.blocks.map ((fun sb => (permuted sb.1 q, be.btranspose q sb.2))
          ∘ (fun sb => (permuted sb.1 p, be.btranspose p sb.2)))
        = x.blocks.map id := by
      apply List.map_congr_left
      intro sb hsb
      show (permuted (permuted sb.1 p) q, be.btranspose q (be.btranspose p sb.2)) = sb
      rw [permuted_permuted p q x.ndim hperm sb.1
        (hlen sb.1 (List.mem_map_of_mem Prod.fst hsb)), hbt]
    rw [hcong, List.map_id]
  · intro s
    by_cases hs : s ∈ x.sectors
    · have htmem : permuted s p ∈ (x.transpose be (some p) true).sectors := by
        rw [hsecT1]
        exact List.mem_map_of_mem _ hs
      have h1 := transpose_phases_lookup be (x.transpose be (some p) true) q p
        hpermT1 hlenT1 (permuted s p) htmem
      rw [permuted_permuted p q x.ndim hperm s (hlen s hs)] at h1
      rw [h1]
      rw [transpose_phaseVal be x p q hperm hlen hok s hs]
      have hpar : (x.transpose be (some p) true).parities (permuted s p)
          = permuted (x.parities s) p := by
        show (permuted s p).map (x.transpose be (some p) true).parity
          = permuted (x.parities s) p
        rw [transpose_parity]
        exact map_permuted x.parity s p
          (fun a ha => (hlen s hs) ▸ invPerm_mem_lt p q x.ndim hperm a ha)
      rw [hpar, calc_phase_permutation_invPerm (x.parities s) p q x.ndim hperm]
      rcases calc_phase_permutation_cases (x.parities s) (some p) with hc | hc <;>
        rw [hc] <;> simp <;>
        exact (phasesOk_lookup_eq x hok s).symm
    · have hrhs : lookupA x.phases s = none :=
        lookupA_eq_none x.phases s (fun kv hkv he => hs (he ▸ (hok kv hkv).2))
      rw [hrhs]
      apply lookupA_eq_none
      intro kv hkv he
      have h := mem_filterMap_cond
        (fun t => ((lookupA (x.transpose be (some p) true).phases t).getD 1)
          * calc_phase_permutation ((x.transpose be (some p) true).parities t)
              (some q) = -1)
        (fun t => permuted t q) (-1) (x.transpose be (some p) true).blocks kv hkv
      obtain ⟨hv, t, ht, hkey⟩ := h
      have ht2 : t ∈ (x.transpose be (some p) true).sectors := ht
      rw [hsecT1, List.mem_map] at ht2
      obtain ⟨k, hk, he2⟩ := ht2
      rw [← he2] at hkey
      have hkey2 : kv.1 = k := by
        rw [hkey]
        exact permuted_permuted p q x.ndim hperm k (hlen k hk)
      exact hs (he ▸ hkey2 ▸ hk)

/-- C6 witness: the phased round trip restores a concrete array that
carries a nonempty phase map. -/
theorem transpose_involution_witness :
    (InvPerm [1, 0] [1, 0] exPh.ndim ∧ (∀ s ∈ exPh.sectors, s.length = exPh.ndim)
      ∧ PhasesOk exPh
      ∧ ∀ b : Int, intBe.btranspose [1, 0] (intBe.btranspose [1, 0] b) = b)
    ∧ (((exPh.transpose intBe (some [1, 0]) true).transpose intBe
          (some [1, 0]) true).indices = exPh.indices
    ∧ ((exPh.transpose intBe (some [1, 0]) true).transpose intBe
          (some [1, 0]) true).blocks = exPh.blocks
    ∧ ∀ s : Sector,
        lookupA ((exPh.transpose intBe (some [1, 0]) true).transpose intBe
          (some [1, 0]) true).phases s = lookupA exPh.phases s) :=
  ⟨⟨by decide, by decide, by decide, fun b => rfl⟩,
    transpose_involution intBe exPh [1, 0] [1, 0]
      (by decide) (by decide) (by decide) (fun b => rfl)⟩

theorem sign_prod_one_a (p c f : Int) (hp : p = 1 ∨ p = -1) (hc : c = 1 ∨ c = -1)
    (hf : f = 1 ∨ f = -1) : ((p * (c * f)) * f) * (p * c) = 1 := by
  rcases hp with h | h <;> rcases hc with h2 | h2 <;> rcases hf with h3 | h3 <;>
    subst h <;> subst h2 <;> subst h3 <;> norm_num

theorem sign_prod_one_b (p c f t : Int) (hp : p = 1 ∨ p = -1) (hc : c = 1 ∨ c = -1)
    (hf : f = 1 ∨ f = -1) (ht : t = 1 ∨ t = -1) (htf : t * f = 1) :
    (p * t) * ((p * (c * f)) * c) = 1 := by
  rcases hp with h | h <;> rcases hc with h2 | h2 <;> rcases hf with h3 | h3 <;>
    rcases ht with h4 | h4 <;> subst h <;> subst h2 <;> subst h3 <;> subst h4 <;>
    norm_num at htf ⊢

/-- C2 (amended): contracting the conjugate of `x` against `x` over all
`ndim` axes gives the same result regardless of which operand is
conjugated, provided every stored sector has even total parity (as with
an even total charge); with an odd-parity sector the two orders differ
by a sign. -/
theorem tensordot_conj_inner_product_even {B : Type} (be : Backend B)
    (x : FermionicArray B) (n : Nat) (hn : x.ndim = n)
    (hlen : ∀ s ∈ x.sectors, s.length = n)
    (hnd : x.sectors.Nodup) (hok : PhasesOk x)
    (heven : ∀ s ∈ x.sectors, (s.countP x.parity) % 2 = 0)
    (hid : ∀ b : B, be.btranspose (List.range n) b = b)
    (hnn : ∀ b : B, be.bneg (be.bneg b) = b)
    (hnegL : ∀ u v : B, be.btdot (List.range n) (List.range n) (be.bneg u) v
      = be.bneg (be.btdot (List.range n) (List.range n) u v))
    (hnegR : ∀ u v : B, be.btdot (List.range n) (List.range n) u (be.bneg v)
      = be.bneg (be.btdot (List.range n) (List.range n) u v))
    (hcomm : ∀ u : B, be.btdot (List.range n) (List.range n) (be.bconj u) u
      = be.btdot (List.range n) (List.range n) u (be.bconj u)) :
    tensordot_fermionic be (x.conj be true) x (Sum.inl n)
      = tensordot_fermionic be x (x.conj be true) (Sum.inl n) := by
  have hxl : x.indices.length = n := hn
  have hcn : (x.conj be true).ndim = n := by
    rw [FermionicArray.conj_ndim]
    exact hn
  have hcsec : (x.conj be true).sectors = x.sectors := FermionicArray.conj_sectors be x true
  have hclen : ∀ s ∈ (x.conj be true).sectors, s.length = n := by
    rw [hcsec]
    exact hlen
  have hcok : PhasesOk (x.conj be true) := conj_phasesOk be x true hok
  rw [tensordot_full be (x.conj be true) x n hcn hn,
    tensordot_full be x (x.conj be true) n hn hcn]
  have hsz1 : ((x.conj be true).transpose be (some (List.range n)) true).size = x.size := by
    rw [transpose_range_size be (x.conj be true) n hcn true, FermionicArray.conj_size]
  have hsz2 : (x.transpose be (some (List.range n)) true).size = x.size :=
    transpose_range_size be x n hn true
  have hcond1 : ((x.conj be true).transpose be (some (List.range n)) true).size
      ≤ ((x.transpose be (some (List.range n)) true).phase_virtual_transpose
          (some ((List.range n).reverse))).size := by
    show ((x.conj be true).transpose be (some (List.range n)) true).size
      ≤ (x.transpose be (some (List.range n)) true).size
    rw [hsz1, hsz2]
  have hcond2 : (x.transpose be (some (List.range n)) true).size
      ≤ (((x.conj be true).transpose be (some (List.range n)) true).phase_virtual_transpose
          (some ((List.range n).reverse))).size := by
    show (x.transpose be (some (List.range n)) true).size
      ≤ ((x.conj be true).transpose be (some (List.range n)) true).size
    rw [hsz1, hsz2]
  rw [if_pos hcond1, if_pos hcond2]
  refine congrArg Except.ok ?_
  -- names for the staged arrays
  have hokTC : PhasesOk ((x.conj be true).transpose be (some (List.range n)) true) :=
    transpose_phasesOk be (x.conj be true) (some (List.range n)) true hcok
  have hokTX : PhasesOk (x.transpose be (some (List.range n)) true) :=
    transpose_phasesOk be x (some (List.range n)) true hok
  have hsecTC : ((x.conj be true).transpose be (some (List.range n)) true).sectors
      = x.sectors := by
    rw [transpose_range_sectors be (x.conj be true) n hclen hid true, hcsec]
  have hsecTX : (x.transpose be (some (List.range n)) true).sectors = x.sectors :=
    transpose_range_sectors be x n hlen hid true
  have hndTC : ((x.conj be true).transpose be (some (List.range n)) true).sectors.Nodup := by
    rw [hsecTC]
    exact hnd
  have hndTX : (x.transpose be (some (List.range n)) true).sectors.Nodup := by
    rw [hsecTX]
    exact hnd
  have hparTC : ((x.conj be true).transpose be (some (List.range n)) true).parity
      = x.parity := by
    rw [transpose_parity]
    rfl
  have hparTX : (x.transpose be (some (List.range n)) true).parity = x.parity :=
    transpose_parity be x (some (List.range n)) true
  have hokFL1 : PhasesOk (((x.conj be true).transpose be (some (List.range n)) true).phase_flip
      ((List.range n).filter (fun ax =>
        (((x.conj be true).transpose be (some (List.range n)) true).indices.getD
          ax default).flow))) :=
    phase_flip_phasesOk _ _ hokTC
  have hokV1 : PhasesOk ((x.transpose be (some (List.range n)) true).phase_virtual_transpose
      (some ((List.range n).reverse))) :=
    phase_virtual_transpose_phasesOk _ _ hokTX
  have hokFL2 : PhasesOk ((x.transpose be (some (List.range n)) true).phase_flip
      ((List.range n).filter (fun ax =>
        ((x.transpose be (some (List.range n)) true).indices.getD ax default).flow))) :=
    phase_flip_phasesOk _ _ hokTX
  have hokV2 : PhasesOk (((x.conj be true).transpose be
      (some (List.range n)) true).phase_virtual_transpose
      (some ((List.range n).reverse))) :=
    phase_virtual_transpose_phasesOk _ _ hokTC
  have hTCb : ((x.conj be true).transpose be (some (List.range n)) true).blocks
      = x.blocks.map (fun sb => (sb.1, be.bconj sb.2)) := by
    rw [transpose_range_blocks be (x.conj be true) n hclen hid true]
    rfl
  have hTXb : (x.transpose be (some (List.range n)) true).blocks = x.blocks :=
    transpose_range_blocks be x n hlen hid true
  refine tensordot_symmetric_congr be _ _ _ _ (List.range n) (List.range n) n
    ?_ ?_ ?_ ?_ ?_ ?_ ?_ ?_ ?_ ?_
  · show ((x.conj be true).transpose be (some (List.range n)) true).ndim = n
    rw [transpose_ndim, Option.getD_some, List.length_range]
  · show (x.transpose be (some (List.range n)) true).ndim = n
    rw [transpose_ndim, Option.getD_some, List.length_range]
  · show (x.transpose be (some (List.range n)) true).ndim = n
    rw [transpose_ndim, Option.getD_some, List.length_range]
  · show ((x.conj be true).transpose be (some (List.range n)) true).ndim = n
    rw [transpose_ndim, Option.getD_some, List.length_range]
  · show ((x.conj be true).transpose be (some (List.range n)) true).parity
      = (x.transpose be (some (List.range n)) true).parity
    rw [hparTC, hparTX]
  · rw [without_self]
    rfl
  · rw [without_self]
    rfl
  · show ((x.conj be true).transpose be (some (List.range n)) true).charge
      = (x.transpose be (some (List.range n)) true).charge
    rw [FermionicArray.transpose_charge, FermionicArray.transpose_charge]
    rfl
  · show (x.transpose be (some (List.range n)) true).charge
      = ((x.conj be true).transpose be (some (List.range n)) true).charge
    rw [FermionicArray.transpose_charge, FermionicArray.transpose_charge]
    rfl
  -- the blocks relation
  rw [FermionicArray.phase_resolve_blocks be _ hokFL1,
    FermionicArray.phase_resolve_blocks be _ hokV1,
    FermionicArray.phase_resolve_blocks be _ hokFL2,
    FermionicArray.phase_resolve_blocks be _ hokV2]
  rw [show (((x.conj be true).transpose be (some (List.range n)) true).phase_flip
      ((List.range n).filter (fun ax =>
        (((x.conj be true).transpose be (some (List.range n)) true).indices.getD
          ax default).flow))).blocks
    = ((x.conj be true).transpose be (some (List.range n)) true).blocks from rfl]
  rw [show ((x.transpose be (some (List.range n)) true).phase_virtual_transpose
      (some ((List.range n).reverse))).blocks
    = (x.transpose be (some (List.range n)) true).blocks from rfl]
  rw [show ((x.transpose be (some (List.range n)) true).phase_flip
      ((List.range n).filter (fun ax =>
        ((x.transpose be (some (List.range n)) true).indices.getD ax default).flow))).blocks
    = (x.transpose be (some (List.range n)) true).blocks from rfl]
  rw [show (((x.conj be true).transpose be
      (some (List.range n)) true).phase_virtual_transpose
      (some ((List.range n).reverse))).blocks
    = ((x.conj be true).transpose be (some (List.range n)) true).blocks from rfl]
  rw [hTCb, hTXb, List.map_map, List.map_map]
  apply forall₂_map_map
  intro sb hsb
  have hsmem : sb.1 ∈ x.sectors := List.mem_map_of_mem Prod.fst hsb
  refine ⟨rfl, ?_⟩
  apply forall₂_map_map
  intro tb htb
  have htmem : tb.1 ∈ x.sectors := List.mem_map_of_mem Prod.fst htb
  refine ⟨rfl, ?_⟩
  intro hcond
  have hkey : sb.1 = tb.1 := by
    have h1 : permuted sb.1 (List.range n) = permuted tb.1 (List.range n) := hcond
    rw [permuted_range_of_length sb.1 n (hlen sb.1 hsmem),
      permuted_range_of_length tb.1 n (hlen tb.1 htmem)] at h1
    exact h1
  have hsbtb : sb = tb := entries_eq_of_nodup_keys x.blocks hnd sb tb hsb htb hkey
  subst hsbtb
  have hsconj : sb.1 ∈ (x.conj be true).sectors := by
    rw [hcsec]
    exact hsmem
  have hsTC : sb.1 ∈ ((x.conj be true).transpose be (some (List.range n)) true).sectors := by
    rw [hsecTC]
    exact hsmem
  have hsTX : sb.1 ∈ (x.transpose be (some (List.range n)) true).sectors := by
    rw [hsecTX]
    exact hsmem
  have hparlen : (x.parities sb.1).length = n := by
    show (sb.1.map x.parity).length = n
    rw [List.length_map]
    exact hlen sb.1 hsmem
  have hCFA : FermionicArray.conjFlipAxes x
      = (List.range n).filter (fun ax => !(x.indices.getD ax default).flow) := by
    unfold FermionicArray.conjFlipAxes
    rw [List.length_map, hxl]
    refine List.filter_congr ?_
    intro ax hax
    have haxl : ax < x.indices.length := by
      rw [hxl]
      exact List.mem_range.mp hax
    rw [getD_map_lt BlockIndex.conj x.indices ax haxl default default]
    rfl
  have hF1 : (List.range n).filter (fun ax =>
        (((x.conj be true).transpose be (some (List.range n)) true).indices.getD
          ax default).flow)
      = (List.range n).filter (fun ax => !(x.indices.getD ax default).flow) := by
    rw [transpose_range_indices be (x.conj be true) n hcn true]
    refine List.filter_congr ?_
    intro ax hax
    have haxl : ax < x.indices.length := by
      rw [hxl]
      exact List.mem_range.mp hax
    show ((x.indices.map BlockIndex.conj).getD ax default).flow
      = !(x.indices.getD ax default).flow
    rw [getD_map_lt BlockIndex.conj x.indices ax haxl default default]
    rfl
  have hF2 : (List.range n).filter (fun ax =>
        ((x.transpose be (some (List.range n)) true).indices.getD ax default).flow)
      = (List.range n).filter (fun ax => (x.indices.getD ax default).flow) := by
    rw [transpose_range_indices be x n hn true]
  have hpTC : ((x.conj be true).transpose be (some (List.range n)) true).parities sb.1
      = x.parities sb.1 := by
    show sb.1.map ((x.conj be true).transpose be (some (List.range n)) true).parity
      = sb.1.map x.parity
    rw [hparTC]
  have hpTX : (x.transpose be (some (List.range n)) true).parities sb.1
      = x.parities sb.1 := by
    show sb.1.map (x.transpose be (some (List.range n)) true).parity
      = sb.1.map x.parity
    rw [hparTX]
  have hTCp : phaseVal ((x.conj be true).transpose be (some (List.range n)) true) sb.1
      = phaseVal x sb.1
        * (calc_phase_permutation (x.parities sb.1) (some ((List.range n).reverse))
          * FermionicArray.axesSign x
            ((List.range n).filter (fun ax => !(x.indices.getD ax default).flow)) sb.1) := by
    rw [transpose_range_phaseVal be (x.conj be true) n hcn hclen hcok sb.1 hsconj,
      FermionicArray.conj_phaseVal be x hnd hok sb.1 hsmem,
      calc_phase_permutation_none (x.parities sb.1) n hparlen, hCFA]
  have hphi1a : phaseVal
      (((x.conj be true).transpose be (some (List.range n)) true).phase_flip
        ((List.range n).filter (fun ax =>
          (((x.conj be true).transpose be (some (List.range n)) true).indices.getD
            ax default).flow))) sb.1
      = (phaseVal x sb.1
          * (calc_phase_permutation (x.parities sb.1) (some ((List.range n).reverse))
            * FermionicArray.axesSign x
              ((List.range n).filter (fun ax => !(x.indices.getD ax default).flow)) sb.1))
        * FermionicArray.axesSign x
          ((List.range n).filter (fun ax => !(x.indices.getD ax default).flow)) sb.1 := by
    rw [FermionicArray.phase_flip_phaseVal _ _ hndTC hokTC sb.1 hsTC, hTCp,
      axesSign_congr _ x hparTC _ sb.1, hF1]
  have hphi1b : phaseVal
      ((x.transpose be (some (List.range n)) true).phase_virtual_transpose
        (some ((List.range n).reverse))) sb.1
      = phaseVal x sb.1
        * calc_phase_permutation (x.parities sb.1) (some ((List.range n).reverse)) := by
    rw [FermionicArray.phase_virtual_transpose_phaseVal _ _ hndTX hokTX sb.1 hsTX,
      transpose_range_phaseVal be x n hn hlen hok sb.1 hsmem, hpTX]
  have hphi2a : phaseVal
      ((x.transpose be (some (List.range n)) true).phase_flip
        ((List.range n).filter (fun ax =>
          ((x.transpose be (some (List.range n)) true).indices.getD ax default).flow))) sb.1
      = phaseVal x sb.1
        * FermionicArray.axesSign x
          ((List.range n).filter (fun ax => (x.indices.getD ax default).flow)) sb.1 := by
    rw [FermionicArray.phase_flip_phaseVal _ _ hndTX hokTX sb.1 hsTX,
      transpose_range_phaseVal be x n hn hlen hok sb.1 hsmem,
      axesSign_congr _ x hparTX _ sb.1, hF2]
  have hphi2b : phaseVal
      (((x.conj be true).transpose be (some (List.range n)) true).phase_virtual_transpose
        (some ((List.range n).reverse))) sb.1
      = (phaseVal x sb.1
          * (calc_phase_permutation (x.parities sb.1) (some ((List.range n).reverse))
            * FermionicArray.axesSign x
              ((List.range n).filter (fun ax => !(x.indices.getD ax default).flow)) sb.1))
        * calc_phase_permutation (x.parities sb.1) (some ((List.range n).reverse)) := by
    rw [FermionicArray.phase_virtual_transpose_phaseVal _ _ hndTC hokTC sb.1 hsTC,
      hTCp, hpTC]
  have hsp0 := phasesOk_phaseVal x hok sb.1
  have hscR := calc_phase_permutation_cases (x.parities sb.1) (some ((List.range n).reverse))
  have hsfF := axesSign_cases x
    ((List.range n).filter (fun ax => !(x.indices.getD ax default).flow)) sb.1
  have hsfT := axesSign_cases x
    ((List.range n).filter (fun ax => (x.indices.getD ax default).flow)) sb.1
  have hTF := axesSign_partition x n sb.1 (hlen sb.1 hsmem) (heven sb.1 hsmem)
  have hprod1 := sign_prod_one_a (phaseVal x sb.1)
    (calc_phase_permutation (x.parities sb.1) (some ((List.range n).reverse)))
    (FermionicArray.axesSign x
      ((List.range n).filter (fun ax => !(x.indices.getD ax default).flow)) sb.1)
    hsp0 hscR hsfF
  have hprod2 := sign_prod_one_b (phaseVal x sb.1)
    (calc_phase_permutation (x.parities sb.1) (some ((List.range n).reverse)))
    (FermionicArray.axesSign x
      ((List.range n).filter (fun ax => !(x.indices.getD ax default).flow)) sb.1)
    (FermionicArray.axesSign x
      ((List.range n).filter (fun ax => (x.indices.getD ax default).flow)) sb.1)
    hsp0 hscR hsfF hsfT hTF
  have hs1 := sign_mul_sign _ _ (sign_mul_sign _ _ hsp0 (sign_mul_sign _ _ hscR hsfF)) hsfF
  have hs2 := sign_mul_sign _ _ hsp0 hscR
  have hs3 := sign_mul_sign _ _ hsp0 hsfT
  have hs4 := sign_mul_sign _ _ (sign_mul_sign _ _ hsp0 (sign_mul_sign _ _ hscR hsfF)) hscR
  show be.btdot (List.range n) (List.range n)
      (signApply be (phaseVal
        (((x.conj be true).transpose be (some (List.range n)) true).phase_flip
          ((List.range n).filter (fun ax =>
            (((x.conj be true).transpose be (some (List.range n)) true).indices.getD
              ax default).flow))) sb.1) (be.bconj sb.2))
      (signApply be (phaseVal
        ((x.transpose be (some (List.range n)) true).phase_virtual_transpose
          (some ((List.range n).reverse))) sb.1) sb.2)
    = be.btdot (List.range n) (List.range n)
      (signApply be (phaseVal
        ((x.transpose be (some (List.range n)) true).phase_flip
          ((List.range n).filter (fun ax =>
            ((x.transpose be (some (List.range n)) true).indices.getD
              ax default).flow))) sb.1) sb.2)
      (signApply be (phaseVal
        (((x.conj be true).transpose be (some (List.range n)) true).phase_virtual_transpose
          (some ((List.range n).reverse))) sb.1) (be.bconj sb.2))
  rw [hphi1a, hphi1b, hphi2a, hphi2b]
  rw [btdot_signApply be (List.range n) (List.range n) hnegL hnegR hnn _ _ hs1 hs2 hprod1
      (be.bconj sb.2) sb.2,
    btdot_signApply be (List.range n) (List.range n) hnegL hnegR hnn _ _ hs3 hs4 hprod2
      sb.2 (be.bconj sb.2)]
  exact hcomm sb.2

/-- A 1-axis array with a single odd-parity sector (odd total charge),
refuting the unconditional form of C2. -/
def exC2 : FermionicArray Int :=
  { parity := intOdd,
    indices := [⟨[(1, 1)], false⟩],
    charge := 1,
    blocks := [([1], 1)],
    phases := [] }

/-- C2 counterexample: on an array whose stored sector has odd total
parity, conjugating the left operand and conjugating the right operand
give contractions differing by a sign, so the claimed unconditional
equality fails. -/
theorem tensordot_conj_order_counterexample :
    ¬ tensordot_fermionic intBe (exC2.conj intBe true) exC2 (Sum.inl 1)
      = tensordot_fermionic intBe exC2 (exC2.conj intBe true) (Sum.inl 1) := by
  intro h
  exact absurd (congrArg (fun r => (Except.toOption r).map (fun y => y.blocks)) h)
    (by decide)

/-- A 2-axis array whose only stored sector has even total parity. -/
def exC2w : FermionicArray Int :=
  { parity := intOdd,
    indices := [⟨[(1, 1)], false⟩, ⟨[(1, 1)], true⟩],
    charge := 2,
    blocks := [([1, 1], 3)],
    phases := [] }

theorem tensordot_conj_inner_product_even_witness :
    tensordot_fermionic intBe (exC2w.conj intBe true) exC2w (Sum.inl 2)
      = tensordot_fermionic intBe exC2w (exC2w.conj intBe true) (Sum.inl 2) :=
  tensordot_conj_inner_product_even intBe exC2w 2 (by decide) (by decide) (by decide)
    (by decide) (by decide) (fun _ => rfl) (fun b => neg_neg b)
    (fun u v => neg_mul u v) (fun u v => mul_neg u v) (fun _ => rfl)

end Symmray
